import Mathlib

/-!
# Verification of `react-router-dev/vite/define-route.ts`

A shallow embedding of the route-module transformer in
`src/packages/react-router-dev/vite/define-route.ts`, together with theorems
about its behaviour.

The embedding works at the level of the parsed syntax tree (babel's AST):
a `Module` is the parse of a module's source text.  Function bodies are
abstracted to the list of their free identifier references (identifiers that
resolve to module scope), which is the only information about them that the
transformer consumes.  Machinery imported from external packages
(`babel-dead-code-elimination`, babel's `generate`) is modelled from the
specification, and each such definition is marked as modelled from the spec
in its doc comment.
-/

namespace DefineRoute

/-- A property key of an object literal: either an `Identifier` node carrying
a name, or any other (string literal, numeric, or a computed key expression
that is not a plain identifier).  Non-identifier keys are rejected by
`analyzeRoute`, so their inner structure is not modelled. -/
inductive PKey where
  | ident (name : String)
  | nonIdent
  deriving Repr, DecidableEq

mutual

/-- Expressions of the modelled source language (babel AST nodes).
`func` stands for any function expression (arrow or `function`), abstracted
to the list of its free identifier references; `other` stands for any other
expression kind, likewise abstracted to its identifier references. -/
inductive Expr where
  | ident (name : String)
  | strLit (s : String)
  | arr (elems : List Expr)
  | obj (props : List RProp)
  | call (callee : Expr) (args : List Expr)
  | func (freeRefs : List String)
  | other (freeRefs : List String)

/-- Properties of an object literal: `ObjectProperty` (a key/value field),
`ObjectMethod` (body abstracted to free references), or a spread element. -/
inductive RProp where
  | field (computed : Bool) (key : PKey) (value : Expr)
  | method (computed : Bool) (key : PKey) (freeRefs : List String)
  | spread (e : Expr)

end

/-- An import specifier of an `ImportDeclaration`:
`named local imported` is `import { imported as local }` (an
`ImportSpecifier` node), `defaultSpec` is `import local` and
`namespaceSpec` is `import * as local`. -/
inductive ImportSpec where
  | named (localName : String) (imported : String)
  | defaultSpec (localName : String)
  | namespaceSpec (localName : String)
  deriving Repr, DecidableEq

/-- Top-level statements.  `varDecl` is a variable declaration with one
declarator whose initializer is `init`; `funcDecl` is a function declaration
with its body abstracted to free identifier references; `exprStmt` is any
other statement, abstracted to the expression(s) it contains. -/
inductive Stmt where
  | importDecl (source : String) (specs : List ImportSpec)
  | varDecl (name : String) (init : Expr)
  | funcDecl (name : String) (freeRefs : List String)
  | exportDefault (e : Expr)
  | exprStmt (e : Expr)

/-- A parsed module: the list of its top-level statements. -/
abbrev Module := List Stmt

/-- The error value produced by `path.buildCodeFrameError(message)`.  Only
the message is modelled; the rendered code frame and source location are
position data attached to the throwing node. -/
structure CodeFrameError where
  message : String
  deriving Repr, DecidableEq

/-! ## Scope / binding resolution (`path.scope.getBinding`) -/

/-- The kind of declaration a module-scope binding originates from. -/
inductive BindingKind where
  | importNamed (imported : String) (source : String)
  | importDefault (source : String)
  | importNamespace (source : String)
  | varB
  | funB
  deriving Repr, DecidableEq

/-- The local (bound) name of an import specifier. -/
def specLocal : ImportSpec → String
  | .named localName _ => localName
  | .defaultSpec localName => localName
  | .namespaceSpec localName => localName

/-- The binding a statement introduces for `name`, if any. -/
def stmtBinding : Stmt → String → Option BindingKind
  | .importDecl source specs, name =>
      specs.findSome? fun sp =>
        match sp with
        | .named localName imported =>
            if localName = name then some (.importNamed imported source) else none
        | .defaultSpec localName =>
            if localName = name then some (.importDefault source) else none
        | .namespaceSpec localName =>
            if localName = name then some (.importNamespace source) else none
  | .varDecl n _, name => if n = name then some .varB else none
  | .funcDecl n _, name => if n = name then some .funB else none
  | _, _ => none

/-- `path.scope.getBinding(name)` at module scope: the first declaration of
`name` among the module's statements. -/
def getBinding (m : Module) (name : String) : Option BindingKind :=
  m.findSome? (stmtBinding · name)

/-- `isCanonicallyImportedAs(binding, { imported, source })` from the source:
the binding's enclosing statement must be an `ImportDeclaration` whose source
string equals `source`, the binding's own node must be an `ImportSpecifier`
(so not a default or namespace import), and its imported name must equal
`imported`. -/
def isCanonicallyImportedAs (b : BindingKind) (imported source : String) : Bool :=
  match b with
  | .importNamed imp src => imp = imported && src = source
  | _ => false

/-- `isDefineRoute(path)` from the source: the node is an identifier whose
binding is canonically `import { defineRoute } from "react-router"`. -/
def isDefineRoute (m : Module) (name : String) : Bool :=
  match getBinding m name with
  | some b => isCanonicallyImportedAs b "defineRoute" "react-router"
  | none => false

/-! ## Identifier occurrences and their syntactic context

`assertDefineRouteOnlyAfterExportDefault` and `assertNotImported` traverse
every `Identifier` node of the module.  For each occurrence the guard needs
to know whether its parent is an `ImportSpecifier`, and whether its parent is
a `CallExpression` whose own parent is the `ExportDefaultDeclaration`.  Both
failure branches throw the same message, so contexts are classified into
exactly those two shapes plus `bad` (everything else). -/

/-- Syntactic context of one identifier occurrence, as tested by the guard. -/
inductive Ctx where
  /-- The parent node is an `ImportSpecifier`. -/
  | importSpec
  /-- The parent node is a `CallExpression` (the occurrence is its callee or
  one of its direct arguments) whose own parent is the
  `ExportDefaultDeclaration`. -/
  | callUnderED
  /-- Any other context. -/
  | bad
  deriving Repr, DecidableEq

/-- One identifier occurrence: its name and its syntactic context. -/
structure Occ where
  name : String
  ctx : Ctx
  deriving Repr, DecidableEq

mutual

/-- All identifier occurrences inside an expression.  `edChild` records
whether this expression is itself the declaration directly under an
`ExportDefaultDeclaration`; direct identifier children of a call in that
position (its callee and its direct arguments) are the occurrences whose
parent is a call whose parent is the export default. -/
def exprOccs : Expr → Bool → List Occ
  | .ident n, _ => [⟨n, .bad⟩]
  | .strLit _, _ => []
  | .arr es, _ => exprOccsList es
  | .obj ps, _ => propOccsList ps
  | .call c as, edChild => callChildOccs c edChild ++ callChildOccsList as edChild
  | .func fr, _ => fr.map (⟨·, .bad⟩)
  | .other fr, _ => fr.map (⟨·, .bad⟩)

/-- Occurrences of a direct child of a call expression: an identifier child
has the call as parent, hence context `callUnderED` when the call sits
directly under the export default. -/
def callChildOccs : Expr → Bool → List Occ
  | .ident n, ed => [⟨n, if ed then .callUnderED else .bad⟩]
  | .strLit _, _ => []
  | .arr es, _ => exprOccsList es
  | .obj ps, _ => propOccsList ps
  | .call c as, _ => callChildOccs c false ++ callChildOccsList as false
  | .func fr, _ => fr.map (⟨·, .bad⟩)
  | .other fr, _ => fr.map (⟨·, .bad⟩)

def callChildOccsList : List Expr → Bool → List Occ
  | [], _ => []
  | e :: es, ed => callChildOccs e ed ++ callChildOccsList es ed

def exprOccsList : List Expr → List Occ
  | [] => []
  | e :: es => exprOccs e false ++ exprOccsList es

/-- Occurrences inside an object property.  A property key that is an
identifier is itself an `Identifier` node with the property as parent. -/
def propOccs : RProp → List Occ
  | .field _ k v => keyOccs k ++ exprOccs v false
  | .method _ k fr => keyOccs k ++ fr.map (⟨·, .bad⟩)
  | .spread e => exprOccs e false

def keyOccs : PKey → List Occ
  | .ident n => [⟨n, .bad⟩]
  | .nonIdent => []

def propOccsList : List RProp → List Occ
  | [] => []
  | p :: ps => propOccs p ++ propOccsList ps

end

/-- Identifier occurrences of one import specifier.  A named specifier
carries two `Identifier` nodes (imported and local), both with the
`ImportSpecifier` as parent; default and namespace specifiers are
`ImportDefaultSpecifier` / `ImportNamespaceSpecifier` nodes, which the
guard's `isImportSpecifier` test does not match. -/
def specOccs : ImportSpec → List Occ
  | .named localName imported => [⟨imported, .importSpec⟩, ⟨localName, .importSpec⟩]
  | .defaultSpec localName => [⟨localName, .bad⟩]
  | .namespaceSpec localName => [⟨localName, .bad⟩]

/-- All identifier occurrences of a statement.  The bound name of a variable
or function declaration is an identifier whose parent is the declarator /
declaration, hence context `bad` (it never resolves to the canonical import
in a well-formed module, since it binds itself). -/
def stmtOccs : Stmt → List Occ
  | .importDecl _ specs => specs.flatMap specOccs
  | .varDecl n e => ⟨n, .bad⟩ :: exprOccs e false
  | .funcDecl n fr => ⟨n, .bad⟩ :: fr.map (⟨·, .bad⟩)
  | .exportDefault e => exprOccs e true
  | .exprStmt e => exprOccs e false

/-- All identifier occurrences of a module, in traversal order. -/
def moduleOccs (m : Module) : List Occ :=
  m.flatMap stmtOccs

/-- `assertDefineRouteOnlyAfterExportDefault(ast)` from the source: traverse
every identifier; skip those that do not resolve to the canonical import and
those whose parent is an `ImportSpecifier`; fail unless the parent is a call
expression whose own parent is the export default declaration.  Both checks
throw the same message. -/
def assertDefineRouteOnlyAfterExportDefault (m : Module) : Except CodeFrameError Unit :=
  match (moduleOccs m).find? (fun o =>
      isDefineRoute m o.name && !(o.ctx == Ctx.importSpec) && !(o.ctx == Ctx.callUnderED)) with
  | some _ => .error ⟨"`defineRoute` must be a function call immediately after `export default`"⟩
  | none => .ok ()

/-- `assertNotImported(code)` from the source: traverse every identifier and
fail on any that resolves to the canonical import (including the identifiers
of the import specifier itself). -/
def assertNotImported (m : Module) : Except CodeFrameError Unit :=
  match (moduleOccs m).find? (fun o => isDefineRoute m o.name) with
  | some _ => .error ⟨"`defineRoute` cannot be used outside of route modules"⟩
  | none => .ok ()

/-! ## The schema matcher (`analyzeRoute`, `analyzeRouteExport`) -/

/-- The identifier key of a property, when it has one. -/
def propKeyName : RProp → Option String
  | .field _ (.ident n) _ => some n
  | .method _ (.ident n) _ => some n
  | _ => none

/-- The `Analysis` record of the source, modelled as an association list from
field name to the index of the property node recorded for it (the value
`analysis[key] = propertyPath` stores).  A JavaScript object keeps the
position of the first assignment of a key and overwrites its value, which is
what `insertAnalysis` does. -/
abbrev Analysis := List (String × Nat)

/-- `analysis[key] = i` with JavaScript object semantics: overwrite in place
if the key is present, append otherwise. -/
def insertAnalysis : Analysis → String → Nat → Analysis
  | [], k, i => [(k, i)]
  | (k', j) :: rest, k, i =>
      if k' = k then (k', i) :: rest else (k', j) :: insertAnalysis rest k i

/-- Is an expression a `StringLiteral` node? -/
def isStrLit : Expr → Bool
  | .strLit _ => true
  | _ => false

/-- The property-by-property loop of `analyzeRoute`, carrying the property
index and the analysis accumulated so far.  Checks, in source order: spread
property; computed or non-identifier key; for the key `params`, that the
property is not a method and that its value is a literal array of literal
strings.  Every surviving property is recorded in the analysis under its key,
whether or not the key belongs to the `Analysis` type's field set. -/
def analyzeRouteGo : List RProp → Nat → Analysis → Except CodeFrameError Analysis
  | [], _, acc => .ok acc
  | p :: ps, i, acc =>
      match p with
      | .spread _ => .error ⟨"Properties cannot be spread into route"⟩
      | .field computed key v =>
          match key with
          | .nonIdent => .error ⟨"Route cannot have computed keys"⟩
          | .ident k =>
              if computed then .error ⟨"Route cannot have computed keys"⟩
              else if k = "params" then
                match v with
                | .arr elems =>
                    if elems.all isStrLit then
                      analyzeRouteGo ps (i + 1) (insertAnalysis acc k i)
                    else .error ⟨"Route param must be a literal string"⟩
                | _ => .error ⟨"Route params must be a literal array"⟩
              else analyzeRouteGo ps (i + 1) (insertAnalysis acc k i)
      | .method computed key _ =>
          match key with
          | .nonIdent => .error ⟨"Route cannot have computed keys"⟩
          | .ident k =>
              if computed then .error ⟨"Route cannot have computed keys"⟩
              else if k = "params" then .error ⟨"Route params must be a literal array"⟩
              else analyzeRouteGo ps (i + 1) (insertAnalysis acc k i)

/-- `analyzeRoute(path)` from the source, over the property list of the
route's object literal. -/
def analyzeRoute (props : List RProp) : Except CodeFrameError Analysis :=
  analyzeRouteGo props 0 []

/-- `analyzeRouteExport(path)` from the source: the default-exported
declaration must be an object literal, or a call to the canonically imported
`defineRoute` with exactly one object-literal argument. -/
def analyzeRouteExport (m : Module) (e : Expr) : Except CodeFrameError Analysis :=
  match e with
  | .obj props => analyzeRoute props
  | .call callee args =>
      match callee with
      | .ident n =>
          if isDefineRoute m n then
            match args with
            | [.obj props] => analyzeRoute props
            | [_] => .error ⟨"`defineRoute` argument must be a literal object"⟩
            | _ => .error ⟨"`defineRoute` must take exactly one argument"⟩
          else
            .error ⟨"Default export of a route module must be either a literal object or a call to `defineRoute`"⟩
      | _ =>
          .error ⟨"Default export of a route module must be either a literal object or a call to `defineRoute`"⟩
  | _ =>
      .error ⟨"Default export of a route module must be either a literal object or a call to `defineRoute`"⟩

/-! ## `parseFields` -/

/-- The `traverse` of `parseFields`: visit each `ExportDefaultDeclaration`,
replacing the collected `fields` by the keys of its analysis. -/
def parseFieldsGo (m : Module) : List Stmt → List String → Except CodeFrameError (List String)
  | [], fields => .ok fields
  | .exportDefault e :: rest, _ =>
      match analyzeRouteExport m e with
      | .error err => .error err
      | .ok a => parseFieldsGo m rest (a.map (·.1))
  | _ :: rest, fields => parseFieldsGo m rest fields

/-- `parseFields(code)` from the source. -/
def parseFields (m : Module) : Except CodeFrameError (List String) :=
  match assertDefineRouteOnlyAfterExportDefault m with
  | .error err => .error err
  | .ok _ => parseFieldsGo m m []

/-! ## The conditional stripper (server-only field removal) -/

/-- The keys checked by `transform`'s removal loop. -/
def serverFields : List String := ["headers", "serverLoader", "serverAction"]

/-- The property indices `transform` marks for removal: the recorded index of
every analysis entry whose key is a server-only field. -/
def serverMarks (a : Analysis) : List Nat :=
  a.filterMap fun ki => if ki.1 ∈ serverFields then some ki.2 else none

/-- Drop the properties at the given indices (`path.remove()` on the marked
property paths), numbering from `i`. -/
def dropIdxGo : List RProp → Nat → List Nat → List RProp
  | [], _, _ => []
  | p :: ps, i, marked =>
      if i ∈ marked then dropIdxGo ps (i + 1) marked
      else p :: dropIdxGo ps (i + 1) marked

/-- Drop the properties at the given indices. -/
def dropIdx (ps : List RProp) (marked : List Nat) : List RProp :=
  dropIdxGo ps 0 marked

/-- Remove the marked properties from the route object of a default-exported
declaration (the object literal itself, or the object-literal argument of the
`defineRoute` call). -/
def removeProps : Expr → List Nat → Expr
  | .obj ps, marked => .obj (dropIdx ps marked)
  | .call c args, marked =>
      .call c (args.map fun a =>
        match a with
        | .obj ps => .obj (dropIdx ps marked)
        | a => a)
  | e, _ => e

/-- One step of `transform`'s `ExportDefaultDeclaration` visitor plus the
removal pass: analyze the export, mark the server-only fields, remove them.
Statements that are not export defaults are untouched. -/
def stripStmt (m : Module) : Stmt → Except CodeFrameError Stmt
  | .exportDefault e =>
      match analyzeRouteExport m e with
      | .error err => .error err
      | .ok a => .ok (.exportDefault (removeProps e (serverMarks a)))
  | s => .ok s

def stripModuleGo (m : Module) : List Stmt → Except CodeFrameError (List Stmt)
  | [] => .ok []
  | s :: rest =>
      match stripStmt m s with
      | .error err => .error err
      | .ok s' =>
          match stripModuleGo m rest with
          | .error err => .error err
          | .ok rest' => .ok (s' :: rest')

/-- The marking-and-removal portion of `transform` (lines 21–34 of the
source), applied to every statement. -/
def stripModule (m : Module) : Except CodeFrameError Module :=
  stripModuleGo m m

/-! ## Identifier references and dead-code elimination

`findReferencedIdentifiers` and `deadCodeElimination` come from the external
`babel-dead-code-elimination` package, which is not part of this repository's
sources; they are modelled from the specification (§3 "Reference Set",
§4.6). -/

mutual

/-- The identifier references inside an expression: identifier uses, not
binding occurrences and not non-computed property keys. -/
def exprRefs : Expr → List String
  | .ident n => [n]
  | .strLit _ => []
  | .arr es => exprRefsList es
  | .obj ps => propRefsList ps
  | .call c as => exprRefs c ++ exprRefsList as
  | .func fr => fr
  | .other fr => fr

def exprRefsList : List Expr → List String
  | [] => []
  | e :: es => exprRefs e ++ exprRefsList es

/-- References inside a property.  A computed identifier key is a reference;
a plain key is not. -/
def propRefs : RProp → List String
  | .field computed k v => (if computed then keyRefs k else []) ++ exprRefs v
  | .method computed k fr => (if computed then keyRefs k else []) ++ fr
  | .spread e => exprRefs e

def keyRefs : PKey → List String
  | .ident n => [n]
  | .nonIdent => []

def propRefsList : List RProp → List String
  | [] => []
  | p :: ps => propRefs p ++ propRefsList ps

end

/-- References of one statement.  Import declarations only bind names; the
bound name of a variable or function declaration is not a reference. -/
def stmtRefs : Stmt → List String
  | .importDecl _ _ => []
  | .varDecl _ e => exprRefs e
  | .funcDecl _ fr => fr
  | .exportDefault e => exprRefs e
  | .exprStmt e => exprRefs e

/-- All identifier references of a module. -/
def moduleRefs (m : Module) : List String :=
  m.flatMap stmtRefs

/-- Modelled from the spec: `findReferencedIdentifiers(ast)` of the external
`babel-dead-code-elimination` package — the set of identifiers referenced
anywhere in the tree, computed before any mutation (§3 "Reference Set"). -/
def findReferencedIdentifiers (m : Module) : List String :=
  moduleRefs m

/-- One statement under one pass of dead-code elimination.  A variable or
function declaration is deleted when its name is a candidate (was referenced
in the original tree) and has no remaining reference; an import declaration
has each such specifier deleted, and is itself deleted when that removes its
last specifier. -/
def dceStepStmt (orig refs : List String) : Stmt → Option Stmt
  | .varDecl n e => if n ∈ orig ∧ n ∉ refs then none else some (.varDecl n e)
  | .funcDecl n fr => if n ∈ orig ∧ n ∉ refs then none else some (.funcDecl n fr)
  | .importDecl source specs =>
      let specs' := specs.filter fun sp => ¬(specLocal sp ∈ orig ∧ specLocal sp ∉ refs)
      if specs' = [] ∧ specs ≠ [] then none else some (.importDecl source specs')
  | s => some s

/-- One pass of dead-code elimination over the whole module. -/
def dceStep (orig : List String) (m : Module) : Module :=
  m.filterMap (dceStepStmt orig (moduleRefs m))

/-- The weight used as fuel for the fixed point: every declaration site
counts, so each effective elimination pass strictly decreases it. -/
def stmtWeight : Stmt → Nat
  | .importDecl _ specs => specs.length + 1
  | .varDecl _ _ => 1
  | .funcDecl _ _ => 1
  | _ => 0

def moduleWeight (m : Module) : Nat :=
  (m.map stmtWeight).sum

def dceIter (orig : List String) : Nat → Module → Module
  | 0, m => m
  | fuel + 1, m => dceIter orig fuel (dceStep orig m)

/-- Modelled from the spec: `deadCodeElimination(ast, refs)` of the external
`babel-dead-code-elimination` package — repeat "delete declarations that are
candidates (their identifier was referenced in the original tree) and have no
remaining reference" until a fixed point is reached (§4.6: transitive,
conservative elimination restricted to the reference-set baseline). -/
def deadCodeElimination (m : Module) (orig : List String) : Module :=
  dceIter orig (moduleWeight m) m

/-! ## Code generation and `transform` -/

mutual

/-- Modelled from the spec: babel's `generate` (§4.7) — a deterministic
serialization of the tree back to source text.  The concrete layout is this
model's own; the properties at stake (determinism, and that equal text comes
from equal trees for the trees compared here) do not depend on it. -/
def genExpr : Expr → String
  | .ident n => n
  | .strLit s => "\x22" ++ s ++ "\x22"
  | .arr es => "[" ++ genExprList es ++ "]"
  | .obj ps => "\x7b " ++ genPropList ps ++ " \x7d"
  | .call c as => genExpr c ++ "(" ++ genExprList as ++ ")"
  | .func fr => "() => \x7b /* uses " ++ String.intercalate ", " fr ++ " */ \x7d"
  | .other fr => "(/* expr using " ++ String.intercalate ", " fr ++ " */)"

def genExprList : List Expr → String
  | [] => ""
  | [e] => genExpr e
  | e :: es => genExpr e ++ ", " ++ genExprList es

def genProp : RProp → String
  | .field c k v => genKey k c ++ ": " ++ genExpr v
  | .method c k fr =>
      genKey k c ++ "() \x7b /* uses " ++ String.intercalate ", " fr ++ " */ \x7d"
  | .spread e => "..." ++ genExpr e

def genKey : PKey → Bool → String
  | .ident n, true => "[" ++ n ++ "]"
  | .ident n, false => n
  | .nonIdent, _ => "/* key */"

def genPropList : List RProp → String
  | [] => ""
  | [p] => genProp p
  | p :: ps => genProp p ++ ", " ++ genPropList ps

end

def genSpec : ImportSpec → String
  | .named localName imported =>
      if localName = imported then imported else imported ++ " as " ++ localName
  | .defaultSpec localName => localName
  | .namespaceSpec localName => "* as " ++ localName

def genSpecList : List ImportSpec → String
  | [] => ""
  | [sp] => genSpec sp
  | sp :: sps => genSpec sp ++ ", " ++ genSpecList sps

def genStmt : Stmt → String
  | .importDecl source specs =>
      "import \x7b " ++ genSpecList specs ++ " \x7d from \x22" ++ source ++ "\x22;"
  | .varDecl n e => "const " ++ n ++ " = " ++ genExpr e ++ ";"
  | .funcDecl n fr =>
      "function " ++ n ++ "() \x7b /* uses " ++ String.intercalate ", " fr ++ " */ \x7d"
  | .exportDefault e => "export default " ++ genExpr e ++ ";"
  | .exprStmt e => genExpr e ++ ";"

/-- Modelled from the spec: the text `generate` produces for a whole module
(§4.7); deterministic by construction. -/
def generate : Module → String
  | [] => ""
  | [s] => genStmt s
  | s :: ss => genStmt s ++ "\n" ++ generate ss

/-- The non-`ssr` pipeline of `transform` (lines 18–36 of the source), at the
level of the parsed tree: compute the reference baseline, run the misuse
guard, mark and remove the server-only fields, then eliminate dead code.  The
returned module is the tree the generated output text re-parses to. -/
def transformAst (m : Module) : Except CodeFrameError Module :=
  let refs := findReferencedIdentifiers m
  match assertDefineRouteOnlyAfterExportDefault m with
  | .error err => .error err
  | .ok _ =>
      match stripModule m with
      | .error err => .error err
      | .ok m' => .ok (deadCodeElimination m' refs)

/-- `transform(code, id, options)` from the source at the text level.  `code`
is the module's source text and `ast` its parse.  When `options.ssr` is set
the input text is returned as-is before anything else runs; otherwise the
transformed tree is serialized. -/
def transform (code : String) (ast : Module) (ssr : Bool) : Except CodeFrameError String :=
  if ssr then .ok code
  else
    match transformAst ast with
    | .error err => .error err
    | .ok m' => .ok (generate m')

/-! ## Notions used by the theorem statements -/

/-- The fixed enumerated field set of the `Analysis` type (§3 of the spec). -/
def routeFieldNames : List String :=
  ["params", "links", "HydrateFallback", "serverLoader", "clientLoader",
   "serverAction", "clientAction", "meta", "Component", "ErrorBoundary", "handle"]

/-- Keep the first occurrence of every element, in order. -/
def dedupFirst : List String → List String
  | [] => []
  | k :: ks => k :: dedupFirst (ks.filter (· ≠ k))
termination_by l => l.length
decreasing_by
  simp only [List.length_cons]
  exact Nat.lt_succ_of_le (List.length_filter_le _ _)

/-- The identifier keys of a property list, in first-occurrence source
order. -/
def objKeys (props : List RProp) : List String :=
  dedupFirst (props.filterMap propKeyName)

/-- The index of the last property whose identifier key is `k`, counting from
`i`. -/
def lastKeyIdxFrom : List RProp → Nat → String → Option Nat
  | [], _, _ => none
  | p :: ps, i, k =>
      (lastKeyIdxFrom ps (i + 1) k).or (if propKeyName p = some k then some i else none)

/-- The index of the last property whose identifier key is `k`. -/
def lastKeyIdx (props : List RProp) (k : String) : Option Nat :=
  lastKeyIdxFrom props 0 k

/-- A property that passes the structural property checks of `analyzeRoute`:
not a spread, not computed, identifier key. -/
def isPlain : RProp → Bool
  | .field c (.ident _) _ => !c
  | .method c (.ident _) _ => !c
  | _ => false

/-- The value shape `analyzeRoute` demands of a `params` property: a
key/value field whose value is a literal array of literal strings. -/
def paramsShapeOk : RProp → Bool
  | .field _ _ (.arr elems) => elems.all isStrLit
  | _ => false

/-- A property that `analyzeRoute` accepts: structurally plain, and obeying
the `params` value rule when its key is `params`. -/
def okProp (p : RProp) : Prop :=
  isPlain p = true ∧ (propKeyName p = some "params" → paramsShapeOk p = true)

instance (p : RProp) : Decidable (okProp p) := by
  unfold okProp
  infer_instance

/-- The route object's property list of a default-exported declaration, for
the shapes the schema accepts. -/
def routeObjProps : Expr → Option (List RProp)
  | .obj ps => some ps
  | .call _ [.obj ps] => some ps
  | _ => none

/-- The default-exported declaration of a statement, if it is one. -/
def stmtExportDefault : Stmt → Option Expr
  | .exportDefault e => some e
  | _ => none

/-- The default-exported declarations of a module. -/
def exportDefaults (m : Module) : List Expr :=
  m.filterMap stmtExportDefault

/-- All names bound at module scope, with multiplicity. -/
def stmtBindingNames : Stmt → List String
  | .importDecl _ specs => specs.map specLocal
  | .varDecl n _ => [n]
  | .funcDecl n _ => [n]
  | _ => []

def bindingNames (m : Module) : List String :=
  m.flatMap stmtBindingNames

/-- A well-formed module binds each module-scope name at most once (valid
JavaScript forbids duplicate lexical declarations). -/
def WFModule (m : Module) : Prop :=
  (bindingNames m).Nodup

instance (m : Module) : Decidable (WFModule m) := by
  unfold WFModule
  infer_instance

/-- Does a statement declare the module-scope name `n`? -/
def stmtDeclares : Stmt → String → Bool
  | .importDecl _ specs, n => specs.any fun sp => specLocal sp = n
  | .varDecl x _, n => x = n
  | .funcDecl x _, n => x = n
  | _, _ => false

/-- `n` is declared by some statement of `m` (a variable, a function, or
an import specifier). -/
def declaredIn (m : Module) (n : String) : Prop :=
  ∃ s ∈ m, stmtDeclares s n = true

/-- No server-only field name occurs more than once among the properties of
any default-exported route object of `m`. -/
def noDupServerKeysB (m : Module) : Bool :=
  (exportDefaults m).all fun e =>
    match routeObjProps e with
    | some ps => serverFields.all fun k => (ps.filterMap propKeyName).count k ≤ 1
    | none => true

/-- Propositional form of `noDupServerKeysB`. -/
def NoDupServerKeys (m : Module) : Prop :=
  noDupServerKeysB m = true

instance (m : Module) : Decidable (NoDupServerKeys m) := by
  unfold NoDupServerKeys
  infer_instance

/-- The canonical factory import is bound somewhere in the module: an import
from `react-router` with a named specifier whose imported name is
`defineRoute`. -/
def canonicalImportBound (m : Module) : Prop :=
  ∃ specs localName, Stmt.importDecl "react-router" specs ∈ m ∧
    ImportSpec.named localName "defineRoute" ∈ specs

/-- How the statement list produced by the strip pass relates statement by
statement to its input: statements that are not default exports pass through
unchanged, and a default export has its analysis's server-marked properties
removed. -/
def StripRel (m : Module) (s s' : Stmt) : Prop :=
  (stmtExportDefault s = none ∧ s' = s) ∨
  (∃ e a, s = .exportDefault e ∧ analyzeRouteExport m e = .ok a ∧
    s' = .exportDefault (removeProps e (serverMarks a)))

/-- The property indices (counting from `i`) whose identifier key is `k`. -/
def keyIndicesFrom : List RProp → Nat → String → List Nat
  | [], _, _ => []
  | p :: ps, i, k =>
      (if propKeyName p = some k then [i] else []) ++ keyIndicesFrom ps (i + 1) k

/-! ## Concrete example modules -/

/-- `export default { serverLoader: () => {}, serverLoader: () => { x } }` —
a valid route export (duplicate keys are accepted) whose server-only field
name is duplicated. -/
def exDup : Module :=
  [.exportDefault (.obj [
    .field false (.ident "serverLoader") (.func []),
    .field false (.ident "serverLoader") (.func ["x"])])]

/-- The client-target transform of `exDup`: only the last `serverLoader`
property was marked, so the first one survives. -/
def exDupOnce : Module :=
  [.exportDefault (.obj [.field false (.ident "serverLoader") (.func [])])]

/-- The client-target transform of `exDupOnce`: now the surviving
`serverLoader` is the last occurrence and is removed. -/
def exDupNone : Module :=
  [.exportDefault (.obj [])]

/-- `import { defineRoute } from "react-router";
export default f(defineRoute);` — the canonical identifier used as a call
argument, not as a callee. -/
def exArgUse : Module :=
  [.importDecl "react-router" [.named "defineRoute" "defineRoute"],
   .exportDefault (.call (.ident "f") [.ident "defineRoute"])]

/-- A route module with a transitive dead-code chain:
`serverLoader` uses `helper`, `helper` uses `helper2`, and `Component` uses
`keepMe`. -/
def exRoute : Module :=
  [.importDecl "react-router" [.named "defineRoute" "defineRoute"],
   .exportDefault (.call (.ident "defineRoute") [.obj [
     .field false (.ident "serverLoader") (.func ["helper"]),
     .field false (.ident "Component") (.func ["keepMe"])]]),
   .funcDecl "helper" ["helper2"],
   .funcDecl "helper2" [],
   .funcDecl "keepMe" []]

/-- The client-target transform of `exRoute`: `serverLoader` is stripped and
the now-dead `helper` and (transitively) `helper2` are eliminated, while
`keepMe` survives together with its reference. -/
def exRouteOut : Module :=
  [.importDecl "react-router" [.named "defineRoute" "defineRoute"],
   .exportDefault (.call (.ident "defineRoute") [.obj [
     .field false (.ident "Component") (.func ["keepMe"])]]),
   .funcDecl "keepMe" []]

/-- A module that imports the factory but has no default export at all. -/
def exNoExport : Module :=
  [.importDecl "react-router" [.named "defineRoute" "defineRoute"],
   .funcDecl "f" []]

/-- A module whose only statement is an unused canonical import. -/
def exUnusedImport : Module :=
  [.importDecl "react-router" [.named "defineRoute" "defineRoute"]]

/-! # Theorems -/

/-! ## The misuse guard -/

/-- The guard succeeds exactly when every identifier occurrence that resolves
to the canonical factory import sits inside an import specifier or directly
inside a call expression placed under the export default. -/
theorem guard_ok_iff (m : Module) :
    assertDefineRouteOnlyAfterExportDefault m = .ok () ↔
      ∀ o ∈ moduleOccs m, isDefineRoute m o.name = true →
        o.ctx = Ctx.importSpec ∨ o.ctx = Ctx.callUnderED := by
  unfold assertDefineRouteOnlyAfterExportDefault
  cases hf : (moduleOccs m).find? (fun o =>
      isDefineRoute m o.name && !(o.ctx == Ctx.importSpec) && !(o.ctx == Ctx.callUnderED)) with
  | none =>
      simp only [true_iff]
      intro o ho hres
      have h := List.find?_eq_none.mp hf o ho
      rcases o with ⟨n, c⟩
      simp only [hres] at h
      cases c
      · exact Or.inl rfl
      · exact Or.inr rfl
      · simp at h
  | some o =>
      simp only [reduceCtorEq, false_iff, not_forall]
      have hp := List.find?_some hf
      have hm := List.mem_of_find?_eq_some hf
      refine ⟨o, hm, ?_⟩
      rcases o with ⟨n, c⟩
      cases c <;> simp_all

/-- The guard either succeeds or fails with the fixed misuse message. -/
theorem guard_ok_or_misuse (m : Module) :
    assertDefineRouteOnlyAfterExportDefault m = .ok () ∨
      assertDefineRouteOnlyAfterExportDefault m =
        .error ⟨"`defineRoute` must be a function call immediately after `export default`"⟩ := by
  unfold assertDefineRouteOnlyAfterExportDefault
  cases (moduleOccs m).find? _ with
  | none => exact Or.inl rfl
  | some o => exact Or.inr rfl

/-- C2: for every input source text and its parse, `transform` with
`targetIsServerExecuting = true` (`options.ssr`) returns the input text
itself, before parsing, analysis or code generation run — identity
passthrough, not re-serialization. -/
theorem C2_ssr_identity (code : String) (ast : Module) :
    transform code ast true = .ok code := rfl

/-- C3 counterexample: in
`import { defineRoute } from "react-router"; export default f(defineRoute);`
the canonical identifier is used as a call *argument*, not as the callee, yet
the misuse guard succeeds, because the guard only tests that the occurrence's
parent is a call expression directly under the export default. -/
theorem C3_counterexample :
    assertDefineRouteOnlyAfterExportDefault exArgUse = .ok () ∧
      isDefineRoute exArgUse "defineRoute" = true ∧
      exArgUse[1]? = some (.exportDefault (.call (.ident "f") [.ident "defineRoute"])) :=
  ⟨rfl, rfl, rfl⟩

/-- C3 (amended): the misuse guard requires every identifier occurrence that
resolves to the canonical factory import to appear directly inside a call
expression — as its callee or as one of its direct arguments — with that call
expression the declaration directly under a default-export statement (import
specifiers are skipped); every other resolved use fails with the fixed
misuse error. -/
theorem C3_amended (m : Module) :
    (assertDefineRouteOnlyAfterExportDefault m = .ok () ↔
      ∀ o ∈ moduleOccs m, isDefineRoute m o.name = true →
        o.ctx = Ctx.importSpec ∨ o.ctx = Ctx.callUnderED) ∧
    (assertDefineRouteOnlyAfterExportDefault m = .ok () ∨
      assertDefineRouteOnlyAfterExportDefault m =
        .error ⟨"`defineRoute` must be a function call immediately after `export default`"⟩) :=
  ⟨guard_ok_iff m, guard_ok_or_misuse m⟩

/-! ## The analysis: keys -/

theorem insertAnalysis_keys (a : Analysis) (k : String) (i : Nat) :
    (insertAnalysis a k i).map Prod.fst =
      if k ∈ a.map Prod.fst then a.map Prod.fst else a.map Prod.fst ++ [k] := by
  induction a with
  | nil => simp [insertAnalysis]
  | cons kv rest ih =>
      obtain ⟨k', j⟩ := kv
      by_cases h : k' = k
      · subst h
        simp [insertAnalysis]
      · simp only [insertAnalysis, if_neg h, List.map_cons, List.mem_cons, ih]
        by_cases hk : k ∈ rest.map Prod.fst
        · simp [hk, Ne.symm h]
        · simp [hk, Ne.symm h]

theorem filter_notMem_append_singleton (l ks : List String) (k : String) :
    l.filter (fun x => x ∉ ks ++ [k]) =
      (l.filter (fun x => x ∉ ks)).filter (fun x => x ≠ k) := by
  rw [List.filter_filter]
  apply List.filter_congr
  intro x _
  by_cases h1 : x ∈ ks <;> by_cases h2 : x = k <;> simp [h1, h2]

theorem filter_notMem_nil (l : List String) :
    l.filter (fun x => x ∉ ([] : List String)) = l := by
  apply List.filter_eq_self.mpr
  intro a _
  simp

theorem dedupFirst_nil : dedupFirst [] = [] := by
  rw [dedupFirst.eq_def]

theorem dedupFirst_cons (k : String) (ks : List String) :
    dedupFirst (k :: ks) = k :: dedupFirst (ks.filter (· ≠ k)) := by
  rw [dedupFirst.eq_def]

theorem dedupFirst_subset : ∀ (l : List String), ∀ x ∈ dedupFirst l, x ∈ l
  | [] => by simp [dedupFirst_nil]
  | k :: ks => by
      intro x hx
      rw [dedupFirst_cons] at hx
      rcases List.mem_cons.mp hx with rfl | hx
      · exact List.mem_cons_self _ _
      · have hmem := dedupFirst_subset (ks.filter (· ≠ k)) x hx
        exact List.mem_cons_of_mem _ (List.mem_of_mem_filter hmem)
termination_by l => l.length
decreasing_by
  simp only [List.length_cons]
  exact Nat.lt_succ_of_le (List.length_filter_le _ _)

theorem analyzeRouteGo_ok_keys :
    ∀ (ps : List RProp) (i : Nat) (acc a : Analysis),
      analyzeRouteGo ps i acc = .ok a →
      a.map Prod.fst = acc.map Prod.fst ++
        dedupFirst ((ps.filterMap propKeyName).filter (fun k => k ∉ acc.map Prod.fst)) := by
  intro ps
  induction ps with
  | nil =>
      intro i acc a h
      simp only [analyzeRouteGo] at h
      cases h
      simp [dedupFirst_nil]
  | cons p ps ih =>
      intro i acc a h
      have step :
          ∀ k, propKeyName p = some k →
            analyzeRouteGo ps (i + 1) (insertAnalysis acc k i) = .ok a →
            a.map Prod.fst = acc.map Prod.fst ++
              dedupFirst (((p :: ps).filterMap propKeyName).filter
                (fun k => k ∉ acc.map Prod.fst)) := by
        intro k hk hrec
        have ihh := ih (i + 1) (insertAnalysis acc k i) a hrec
        rw [insertAnalysis_keys] at ihh
        by_cases hmem : k ∈ acc.map Prod.fst
        · rw [if_pos hmem] at ihh
          simpa [List.filterMap_cons, hk, List.filter_cons, hmem] using ihh
        · rw [if_neg hmem] at ihh
          rw [ihh]
          simp only [List.filterMap_cons, hk, List.filter_cons, hmem, not_false_eq_true,
            decide_True, if_true, dedupFirst_cons, List.append_assoc, List.singleton_append,
            List.cons.injEq, true_and]
          rw [filter_notMem_append_singleton]
      match p with
      | .spread e => simp [analyzeRouteGo] at h
      | .field computed key v =>
          match key with
          | .nonIdent => simp [analyzeRouteGo] at h
          | .ident k =>
              by_cases hc : computed
              · simp [analyzeRouteGo, hc] at h
              · by_cases hk : k = "params"
                · subst hk
                  match v with
                  | .arr elems =>
                      by_cases hall : elems.all isStrLit
                      · simp only [analyzeRouteGo, hc, hall, Bool.false_eq_true, if_false,
                          reduceIte] at h
                        exact step _ rfl h
                      · simp [analyzeRouteGo, hc, hall] at h
                  | .ident n => simp [analyzeRouteGo, hc] at h
                  | .strLit s => simp [analyzeRouteGo, hc] at h
                  | .obj ps' => simp [analyzeRouteGo, hc] at h
                  | .call c as => simp [analyzeRouteGo, hc] at h
                  | .func fr => simp [analyzeRouteGo, hc] at h
                  | .other fr => simp [analyzeRouteGo, hc] at h
                · simp only [analyzeRouteGo, hc, hk, Bool.false_eq_true, if_false,
                    reduceIte] at h
                  exact step _ rfl h
      | .method computed key fr =>
          match key with
          | .nonIdent => simp [analyzeRouteGo] at h
          | .ident k =>
              by_cases hc : computed
              · simp [analyzeRouteGo, hc] at h
              · by_cases hk : k = "params"
                · simp [analyzeRouteGo, hc, hk] at h
                · simp only [analyzeRouteGo, hc, hk, Bool.false_eq_true, if_false,
                    reduceIte] at h
                  exact step _ rfl h

/-- On success, the analysis's keys are the export object's identifier keys
in first-occurrence source order. -/
theorem analyzeRoute_ok_keys (ps : List RProp) (a : Analysis)
    (h : analyzeRoute ps = .ok a) :
    a.map Prod.fst = objKeys ps := by
  have := analyzeRouteGo_ok_keys ps 0 [] a h
  simpa [objKeys, filter_notMem_nil] using this

/-- A successful `analyzeRouteExport` means the export had one of the two
accepted shapes, and the analysis is that of its route object's property
list. -/
theorem analyzeRouteExport_ok (m : Module) (e : Expr) (a : Analysis)
    (h : analyzeRouteExport m e = .ok a) :
    ∃ ps, routeObjProps e = some ps ∧ analyzeRoute ps = .ok a := by
  match e with
  | .obj props => exact ⟨props, rfl, h⟩
  | .call callee args =>
      match callee with
      | .ident n =>
          simp only [analyzeRouteExport] at h
          by_cases hd : isDefineRoute m n
          · rw [if_pos hd] at h
            match args with
            | [] => simp at h
            | [.obj props] => exact ⟨props, rfl, h⟩
            | [.ident x] => simp at h
            | [.strLit s] => simp at h
            | [.arr es] => simp at h
            | [.call c as] => simp at h
            | [.func fr] => simp at h
            | [.other fr] => simp at h
            | a₁ :: a₂ :: rest => simp at h
          · rw [if_neg hd] at h
            simp at h
      | .strLit s => simp [analyzeRouteExport] at h
      | .arr es => simp [analyzeRouteExport] at h
      | .obj ps' => simp [analyzeRouteExport] at h
      | .call c as => simp [analyzeRouteExport] at h
      | .func fr => simp [analyzeRouteExport] at h
      | .other fr => simp [analyzeRouteExport] at h
  | .ident n => simp [analyzeRouteExport] at h
  | .strLit s => simp [analyzeRouteExport] at h
  | .arr es => simp [analyzeRouteExport] at h
  | .func fr => simp [analyzeRouteExport] at h
  | .other fr => simp [analyzeRouteExport] at h

/-! ## `parseFields` -/

theorem parseFieldsGo_spec (m : Module) :
    ∀ (ss : List Stmt) (acc fs : List String),
      parseFieldsGo m ss acc = .ok fs →
      (exportDefaults ss = [] ∧ fs = acc) ∨
      (∃ e a, (exportDefaults ss).getLast? = some e ∧
        analyzeRouteExport m e = .ok a ∧ fs = a.map Prod.fst) := by
  intro ss
  induction ss with
  | nil =>
      intro acc fs h
      simp only [parseFieldsGo] at h
      cases h
      exact Or.inl ⟨rfl, rfl⟩
  | cons s rest ih =>
      intro acc fs h
      match s with
      | .exportDefault e =>
          simp only [parseFieldsGo] at h
          cases ha : analyzeRouteExport m e with
          | error err => rw [ha] at h; simp at h
          | ok a =>
              rw [ha] at h
              simp only at h
              rcases ih (a.map Prod.fst) fs h with ⟨hnone, hfs⟩ | ⟨e', a', hl, ha', hfs⟩
              · refine Or.inr ⟨e, a, ?_, ha, hfs⟩
                simp only [exportDefaults] at hnone ⊢
                rw [List.filterMap_cons]
                simp only [stmtExportDefault, hnone]
                rfl
              · refine Or.inr ⟨e', a', ?_, ha', hfs⟩
                simp only [exportDefaults] at hl ⊢
                rw [List.filterMap_cons]
                simp only [stmtExportDefault]
                cases hrest : List.filterMap stmtExportDefault rest with
                | nil => rw [hrest] at hl; simp at hl
                | cons x xs =>
                    rw [hrest] at hl
                    rw [List.getLast?_cons_cons]
                    exact hl
      | .importDecl src specs =>
          simp only [parseFieldsGo] at h
          simpa [exportDefaults, List.filterMap_cons, stmtExportDefault] using ih acc fs h
      | .varDecl n e =>
          simp only [parseFieldsGo] at h
          simpa [exportDefaults, List.filterMap_cons, stmtExportDefault] using ih acc fs h
      | .funcDecl n fr =>
          simp only [parseFieldsGo] at h
          simpa [exportDefaults, List.filterMap_cons, stmtExportDefault] using ih acc fs h
      | .exprStmt e =>
          simp only [parseFieldsGo] at h
          simpa [exportDefaults, List.filterMap_cons, stmtExportDefault] using ih acc fs h

/-- C4 counterexample: `export default { foo: "x" }` is accepted by
`parseFields`, which returns the field name `foo` — a name outside the fixed
enumerated field set (`analyzeRoute` records *every* identifier key, with no
membership check against the `Analysis` type's fields). -/
theorem C4_counterexample :
    parseFields [Stmt.exportDefault (.obj [.field false (.ident "foo") (.strLit "x")])] =
        .ok ["foo"] ∧
      "foo" ∉ routeFieldNames := by
  exact ⟨rfl, by decide⟩

/-- C4 (amended): for every module on which `parseFields` succeeds, the
returned sequence consists of the identifier property keys of the (last)
default export's route object, in first-to-last source order of the export's
properties (first occurrence wins for duplicated keys); the keys are *not*
restricted to the fixed enumerated field set.  When the module has no default
export the list is empty. -/
theorem C4_amended (m : Module) (fs : List String) (h : parseFields m = .ok fs) :
    (exportDefaults m = [] ∧ fs = []) ∨
    (∃ e ps, (exportDefaults m).getLast? = some e ∧ routeObjProps e = some ps ∧
      fs = objKeys ps) := by
  unfold parseFields at h
  cases hg : assertDefineRouteOnlyAfterExportDefault m with
  | error err => rw [hg] at h; simp [Except.bind] at h
  | ok u =>
      rw [hg] at h
      simp only [Except.bind] at h
      rcases parseFieldsGo_spec m m [] fs h with ⟨hnone, hfs⟩ | ⟨e, a, hl, ha, hfs⟩
      · exact Or.inl ⟨hnone, hfs⟩
      · rcases analyzeRouteExport_ok m e a ha with ⟨ps, hps, har⟩
        exact Or.inr ⟨e, ps, hl, hps, by rw [hfs, analyzeRoute_ok_keys ps a har]⟩

/-- Witness for C4 (amended) at `exRoute`. -/
theorem C4_witness :
    (exportDefaults exRoute = [] ∧ ["serverLoader", "Component"] = []) ∨
    (∃ e ps, (exportDefaults exRoute).getLast? = some e ∧ routeObjProps e = some ps ∧
      ["serverLoader", "Component"] = objKeys ps) :=
  C4_amended exRoute ["serverLoader", "Component"] (by rfl)

/-! ## The analysis: success, failure and recorded locations -/

/-- `analyzeRouteGo` succeeds on a list of acceptable properties. -/
theorem analyzeRouteGo_ok_of_forall :
    ∀ (ps : List RProp) (i : Nat) (acc : Analysis),
      (∀ p ∈ ps, okProp p) → ∃ a, analyzeRouteGo ps i acc = .ok a := by
  intro ps
  induction ps with
  | nil => intro i acc _; exact ⟨acc, rfl⟩
  | cons p ps ih =>
      intro i acc h
      have hp := h p (List.mem_cons_self p ps)
      have hps := fun q hq => h q (List.mem_cons_of_mem p hq)
      obtain ⟨hplain, hparams⟩ := hp
      match p with
      | .spread e => simp [isPlain] at hplain
      | .field computed (.nonIdent) v => simp [isPlain] at hplain
      | .method computed (.nonIdent) fr => simp [isPlain] at hplain
      | .field computed (.ident k) v =>
          have hc : computed = false := by
            cases computed
            · rfl
            · simp [isPlain] at hplain
          subst hc
          by_cases hk : k = "params"
          · subst hk
            have hshape := hparams (by simp [propKeyName])
            match v with
            | .arr elems =>
                have hall : elems.all isStrLit = true := by
                  simpa [paramsShapeOk] using hshape
                obtain ⟨a, ha⟩ := ih (i + 1) (insertAnalysis acc "params" i) hps
                exact ⟨a, by simp [analyzeRouteGo, hall, ha]⟩
            | .ident n => simp [paramsShapeOk] at hshape
            | .strLit s => simp [paramsShapeOk] at hshape
            | .obj ps' => simp [paramsShapeOk] at hshape
            | .call c as => simp [paramsShapeOk] at hshape
            | .func fr => simp [paramsShapeOk] at hshape
            | .other fr => simp [paramsShapeOk] at hshape
          · obtain ⟨a, ha⟩ := ih (i + 1) (insertAnalysis acc k i) hps
            exact ⟨a, by simp [analyzeRouteGo, hk, ha]⟩
      | .method computed (.ident k) fr =>
          have hc : computed = false := by
            cases computed
            · rfl
            · simp [isPlain] at hplain
          subst hc
          by_cases hk : k = "params"
          · subst hk
            have := hparams (by simp [propKeyName])
            simp [paramsShapeOk] at this
          · obtain ⟨a, ha⟩ := ih (i + 1) (insertAnalysis acc k i) hps
            exact ⟨a, by simp [analyzeRouteGo, hk, ha]⟩

/-- Conversely, every property of a successfully analyzed list is
acceptable. -/
theorem analyzeRouteGo_forall_of_ok :
    ∀ (ps : List RProp) (i : Nat) (acc a : Analysis),
      analyzeRouteGo ps i acc = .ok a → ∀ p ∈ ps, okProp p := by
  intro ps
  induction ps with
  | nil => intro i acc a _ p hp; simp at hp
  | cons p ps ih =>
      intro i acc a h q hq
      have step :
          ∀ k, analyzeRouteGo ps (i + 1) (insertAnalysis acc k i) = .ok a →
            q ∈ ps → okProp q := fun k hrec hq' => ih (i + 1) (insertAnalysis acc k i) a hrec q hq'
      match p with
      | .spread e => simp [analyzeRouteGo] at h
      | .field computed (.nonIdent) v => simp [analyzeRouteGo] at h
      | .method computed (.nonIdent) fr => simp [analyzeRouteGo] at h
      | .field computed (.ident k) v =>
          by_cases hc : computed
          · simp [analyzeRouteGo, hc] at h
          · by_cases hk : k = "params"
            · subst hk
              match v with
              | .arr elems =>
                  by_cases hall : elems.all isStrLit
                  · simp only [analyzeRouteGo, hc, hall, Bool.false_eq_true, if_false,
                      reduceIte] at h
                    rcases List.mem_cons.mp hq with hq | hq
                    · subst hq
                      have hc' : computed = false := by
                        cases computed
                        · rfl
                        · exact absurd rfl hc
                      refine ⟨by simp [isPlain, hc'], fun _ => ?_⟩
                      simpa [paramsShapeOk] using hall
                    · exact step _ h hq
                  · simp [analyzeRouteGo, hc, hall] at h
              | .ident n => simp [analyzeRouteGo, hc] at h
              | .strLit s => simp [analyzeRouteGo, hc] at h
              | .obj ps' => simp [analyzeRouteGo, hc] at h
              | .call c as => simp [analyzeRouteGo, hc] at h
              | .func fr => simp [analyzeRouteGo, hc] at h
              | .other fr => simp [analyzeRouteGo, hc] at h
            · simp only [analyzeRouteGo, hc, hk, Bool.false_eq_true, if_false,
                reduceIte] at h
              rcases List.mem_cons.mp hq with hq | hq
              · subst hq
                have hc' : computed = false := by
                  cases computed
                  · rfl
                  · exact absurd rfl hc
                exact ⟨by simp [isPlain, hc'], by simp [propKeyName, hk]⟩
              · exact step _ h hq
      | .method computed (.ident k) fr =>
          by_cases hc : computed
          · simp [analyzeRouteGo, hc] at h
          · by_cases hk : k = "params"
            · simp [analyzeRouteGo, hc, hk] at h
            · simp only [analyzeRouteGo, hc, hk, Bool.false_eq_true, if_false,
                reduceIte] at h
              rcases List.mem_cons.mp hq with hq | hq
              · subst hq
                have hc' : computed = false := by
                  cases computed
                  · rfl
                  · exact absurd rfl hc
                exact ⟨by simp [isPlain, hc'], by simp [propKeyName, hk]⟩
              · exact step _ h hq

theorem insertAnalysis_lookup (a : Analysis) (k k' : String) (i : Nat) :
    (insertAnalysis a k i).lookup k' = if k' = k then some i else a.lookup k' := by
  induction a with
  | nil =>
      by_cases h : k' = k
      · subst h
        simp [insertAnalysis, List.lookup]
      · simp [insertAnalysis, List.lookup, beq_eq_false_iff_ne.mpr h, h]
  | cons kv rest ih =>
      obtain ⟨k₀, j₀⟩ := kv
      by_cases h0 : k₀ = k
      · subst h0
        by_cases h : k' = k₀
        · subst h
          simp [insertAnalysis, List.lookup]
        · simp [insertAnalysis, List.lookup, beq_eq_false_iff_ne.mpr h, h]
      · by_cases h : k' = k₀
        · subst h
          have hne : ¬k' = k := fun hc => h0 (hc ▸ rfl)
          simp [insertAnalysis, h0, List.lookup, hne]
        · simp only [insertAnalysis, if_neg h0, List.lookup,
            beq_eq_false_iff_ne.mpr h]
          exact ih

theorem analyzeRouteGo_ok_lookup :
    ∀ (ps : List RProp) (i : Nat) (acc a : Analysis),
      analyzeRouteGo ps i acc = .ok a →
      ∀ k, a.lookup k = (lastKeyIdxFrom ps i k).or (acc.lookup k) := by
  intro ps
  induction ps with
  | nil =>
      intro i acc a h k
      simp only [analyzeRouteGo] at h
      cases h
      simp [lastKeyIdxFrom]
  | cons p ps ih =>
      intro i acc a h k
      have step :
          ∀ k₀, propKeyName p = some k₀ →
            analyzeRouteGo ps (i + 1) (insertAnalysis acc k₀ i) = .ok a →
            a.lookup k = (lastKeyIdxFrom (p :: ps) i k).or (acc.lookup k) := by
        intro k₀ hk₀ hrec
        have ihh := ih (i + 1) (insertAnalysis acc k₀ i) a hrec k
        rw [insertAnalysis_lookup] at ihh
        rw [ihh]
        simp only [lastKeyIdxFrom, hk₀, Option.or_assoc]
        by_cases hkk : k = k₀
        · simp [hkk]
        · rw [if_neg hkk, if_neg (fun hh => hkk (Option.some.inj hh).symm)]
          simp
      match p with
      | .spread e => simp [analyzeRouteGo] at h
      | .field computed (.nonIdent) v => simp [analyzeRouteGo] at h
      | .method computed (.nonIdent) fr => simp [analyzeRouteGo] at h
      | .field computed (.ident k₁) v =>
          by_cases hc : computed
          · simp [analyzeRouteGo, hc] at h
          · by_cases hk : k₁ = "params"
            · subst hk
              match v with
              | .arr elems =>
                  by_cases hall : elems.all isStrLit
                  · simp only [analyzeRouteGo, hc, hall, Bool.false_eq_true, if_false,
                      reduceIte] at h
                    exact step _ (by simp [propKeyName]) h
                  · simp [analyzeRouteGo, hc, hall] at h
              | .ident n => simp [analyzeRouteGo, hc] at h
              | .strLit s => simp [analyzeRouteGo, hc] at h
              | .obj ps' => simp [analyzeRouteGo, hc] at h
              | .call c as => simp [analyzeRouteGo, hc] at h
              | .func fr => simp [analyzeRouteGo, hc] at h
              | .other fr => simp [analyzeRouteGo, hc] at h
            · simp only [analyzeRouteGo, hc, hk, Bool.false_eq_true, if_false,
                reduceIte] at h
              exact step _ (by simp [propKeyName]) h
      | .method computed (.ident k₁) fr =>
          by_cases hc : computed
          · simp [analyzeRouteGo, hc] at h
          · by_cases hk : k₁ = "params"
            · simp [analyzeRouteGo, hc, hk] at h
            · simp only [analyzeRouteGo, hc, hk, Bool.false_eq_true, if_false,
                reduceIte] at h
              exact step _ (by simp [propKeyName]) h

/-- C9: when the export's object literal repeats an identifier key, the
schema matcher raises no error, and the resulting field→location mapping
sends every key to its *last* occurrence among the properties (later
duplicates overwrite earlier ones). -/
theorem C9_duplicate_keys_last_wins (props : List RProp)
    (h : ∀ p ∈ props, okProp p) :
    ∃ a, analyzeRoute props = .ok a ∧ ∀ k, a.lookup k = lastKeyIdx props k := by
  obtain ⟨a, ha⟩ := analyzeRouteGo_ok_of_forall props 0 [] h
  refine ⟨a, ha, fun k => ?_⟩
  have := analyzeRouteGo_ok_lookup props 0 [] a ha k
  simpa [lastKeyIdx, List.lookup] using this

/-- Witness for C9 on a route object with a duplicated `Component` key:
the mapping records index 2, the last occurrence. -/
theorem C9_witness :
    ∃ a,
      analyzeRoute
        [.field false (.ident "Component") (.func []),
         .field false (.ident "meta") (.func []),
         .field false (.ident "Component") (.func ["z"])] = .ok a ∧
      ∀ k, a.lookup k = lastKeyIdx
        [.field false (.ident "Component") (.func []),
         .field false (.ident "meta") (.func []),
         .field false (.ident "Component") (.func ["z"])] k :=
  C9_duplicate_keys_last_wins _ (by decide)

/-- When every property is structurally plain, the only way `analyzeRouteGo`
can fail is a malformed `params` property, with the matching field-specific
message. -/
theorem analyzeRouteGo_error_params :
    ∀ (ps : List RProp) (i : Nat) (acc : Analysis) (err : CodeFrameError),
      (∀ p ∈ ps, isPlain p = true) →
      analyzeRouteGo ps i acc = .error err →
      (∃ p ∈ ps, propKeyName p = some "params" ∧ paramsShapeOk p = false) ∧
      (err.message = "Route params must be a literal array" ∨
       err.message = "Route param must be a literal string") := by
  intro ps
  induction ps with
  | nil => intro i acc err _ h; simp [analyzeRouteGo] at h
  | cons p ps ih =>
      intro i acc err hplain h
      have hp := hplain p (List.mem_cons_self p ps)
      have hps := fun q hq => hplain q (List.mem_cons_of_mem p hq)
      have liftTail :
          ∀ k, analyzeRouteGo ps (i + 1) (insertAnalysis acc k i) = .error err →
            (∃ p' ∈ p :: ps, propKeyName p' = some "params" ∧ paramsShapeOk p' = false) ∧
            (err.message = "Route params must be a literal array" ∨
             err.message = "Route param must be a literal string") := by
        intro k hrec
        obtain ⟨⟨q, hq, hqp⟩, hmsg⟩ := ih (i + 1) (insertAnalysis acc k i) err hps hrec
        exact ⟨⟨q, List.mem_cons_of_mem p hq, hqp⟩, hmsg⟩
      match p with
      | .spread e => simp [isPlain] at hp
      | .field computed (.nonIdent) v => simp [isPlain] at hp
      | .method computed (.nonIdent) fr => simp [isPlain] at hp
      | .field computed (.ident k) v =>
          have hc : computed = false := by
            cases computed
            · rfl
            · simp [isPlain] at hp
          subst hc
          by_cases hk : k = "params"
          · subst hk
            match v with
            | .arr elems =>
                by_cases hall : elems.all isStrLit
                · simp only [analyzeRouteGo, hall, Bool.false_eq_true, if_false,
                    reduceIte] at h
                  exact liftTail _ h
                · simp only [analyzeRouteGo, hall, Bool.false_eq_true, if_false,
                    reduceIte] at h
                  cases h
                  refine ⟨⟨_, List.mem_cons_self _ _, by simp [propKeyName], ?_⟩, Or.inr rfl⟩
                  simpa [paramsShapeOk] using hall
            | .ident n =>
                simp only [analyzeRouteGo, reduceIte] at h
                cases h
                exact ⟨⟨_, List.mem_cons_self _ _, by simp [propKeyName],
                  by simp [paramsShapeOk]⟩, Or.inl rfl⟩
            | .strLit s =>
                simp only [analyzeRouteGo, reduceIte] at h
                cases h
                exact ⟨⟨_, List.mem_cons_self _ _, by simp [propKeyName],
                  by simp [paramsShapeOk]⟩, Or.inl rfl⟩
            | .obj ps' =>
                simp only [analyzeRouteGo, reduceIte] at h
                cases h
                exact ⟨⟨_, List.mem_cons_self _ _, by simp [propKeyName],
                  by simp [paramsShapeOk]⟩, Or.inl rfl⟩
            | .call c as =>
                simp only [analyzeRouteGo, reduceIte] at h
                cases h
                exact ⟨⟨_, List.mem_cons_self _ _, by simp [propKeyName],
                  by simp [paramsShapeOk]⟩, Or.inl rfl⟩
            | .func fr =>
                simp only [analyzeRouteGo, reduceIte] at h
                cases h
                exact ⟨⟨_, List.mem_cons_self _ _, by simp [propKeyName],
                  by simp [paramsShapeOk]⟩, Or.inl rfl⟩
            | .other fr =>
                simp only [analyzeRouteGo, reduceIte] at h
                cases h
                exact ⟨⟨_, List.mem_cons_self _ _, by simp [propKeyName],
                  by simp [paramsShapeOk]⟩, Or.inl rfl⟩
          · simp only [analyzeRouteGo, hk, Bool.false_eq_true, if_false, reduceIte] at h
            exact liftTail _ h
      | .method computed (.ident k) fr =>
          have hc : computed = false := by
            cases computed
            · rfl
            · simp [isPlain] at hp
          subst hc
          by_cases hk : k = "params"
          · subst hk
            simp only [analyzeRouteGo, reduceIte] at h
            cases h
            exact ⟨⟨_, List.mem_cons_self _ _, by simp [propKeyName],
              by simp [paramsShapeOk]⟩, Or.inl rfl⟩
          · simp only [analyzeRouteGo, hk, Bool.false_eq_true, if_false, reduceIte] at h
            exact liftTail _ h

/-- C6: for an export object whose properties are structurally plain, the
schema matcher succeeds only when every property named `params` has a
literal-array-of-literal-strings value; on violation it fails with the
field-specific `SchemaError` (array-shape message vs. non-string-element
message), and being an `Except`, returns no partial analysis. -/
theorem C6_params_validation (props : List RProp)
    (h : ∀ p ∈ props, isPlain p = true) :
    (∀ a, analyzeRoute props = .ok a →
      ∀ p ∈ props, propKeyName p = some "params" → paramsShapeOk p = true) ∧
    (∀ err, analyzeRoute props = .error err →
      (∃ p ∈ props, propKeyName p = some "params" ∧ paramsShapeOk p = false) ∧
      (err.message = "Route params must be a literal array" ∨
       err.message = "Route param must be a literal string")) := by
  constructor
  · intro a ha p hp hkey
    exact (analyzeRouteGo_forall_of_ok props 0 [] a ha p hp).2 hkey
  · intro err herr
    exact analyzeRouteGo_error_params props 0 [] err h herr

/-- Witness for C6: `{ params: "x" }` fails with the array-shape message. -/
theorem C6_witness :
    (∀ a, analyzeRoute [.field false (.ident "params") (.strLit "x")] = .ok a →
      ∀ p ∈ [RProp.field false (.ident "params") (.strLit "x")],
        propKeyName p = some "params" → paramsShapeOk p = true) ∧
    (∀ err, analyzeRoute [.field false (.ident "params") (.strLit "x")] = .error err →
      (∃ p ∈ [RProp.field false (.ident "params") (.strLit "x")],
        propKeyName p = some "params" ∧ paramsShapeOk p = false) ∧
      (err.message = "Route params must be a literal array" ∨
       err.message = "Route param must be a literal string")) :=
  C6_params_validation _ (by decide)

/-! ## The canonical-import test -/

/-- C5: the canonical-factory test holds exactly of a named import specifier
with the demanded imported name and exact source string (never a default or
namespace import, no alias resolution); and a default-exported call whose
callee does not resolve as the canonical factory is rejected with the
object-or-factory-call `SchemaError`. -/
theorem C5_canonical_import (m : Module) (callee : Expr) (args : List Expr)
    (h : ∀ n, callee = Expr.ident n → isDefineRoute m n = false) :
    (∀ b imported source, isCanonicallyImportedAs b imported source = true ↔
        b = .importNamed imported source) ∧
    analyzeRouteExport m (.call callee args) =
      .error ⟨"Default export of a route module must be either a literal object or a call to `defineRoute`"⟩ := by
  constructor
  · intro b imported source
    cases b <;> simp [isCanonicallyImportedAs]
  · match callee with
    | .ident n =>
        have := h n rfl
        simp [analyzeRouteExport, this]
    | .strLit s => rfl
    | .arr es => rfl
    | .obj ps' => rfl
    | .call c as => rfl
    | .func fr => rfl
    | .other fr => rfl

/-- Witness for C5 on an unbound callee in the empty module. -/
theorem C5_witness :
    (∀ b imported source, isCanonicallyImportedAs b imported source = true ↔
        b = .importNamed imported source) ∧
    analyzeRouteExport [] (.call (.ident "x") []) =
      .error ⟨"Default export of a route module must be either a literal object or a call to `defineRoute`"⟩ :=
  C5_canonical_import [] (.ident "x") [] (by intro n hn; cases hn; rfl)

/-! ## Binding resolution and `assertNotImported` -/

theorem isCanonicallyImportedAs_iff (b : BindingKind) (imported source : String) :
    isCanonicallyImportedAs b imported source = true ↔
      b = .importNamed imported source := by
  cases b <;> simp [isCanonicallyImportedAs]

/-- A binding produced by a statement uses a name that the statement
declares. -/
theorem stmtBinding_mem_bindingNames (s : Stmt) (n : String) (b : BindingKind)
    (h : stmtBinding s n = some b) : n ∈ stmtBindingNames s := by
  match s with
  | .importDecl source specs =>
      simp only [stmtBinding] at h
      obtain ⟨sp, hsp, hb⟩ := List.exists_of_findSome?_eq_some h
      match sp with
      | .named localName imported =>
          by_cases hl : localName = n
          · subst hl
            exact List.mem_map.mpr ⟨_, hsp, rfl⟩
          · simp [hl] at hb
      | .defaultSpec localName =>
          by_cases hl : localName = n
          · subst hl
            exact List.mem_map.mpr ⟨_, hsp, rfl⟩
          · simp [hl] at hb
      | .namespaceSpec localName =>
          by_cases hl : localName = n
          · subst hl
            exact List.mem_map.mpr ⟨_, hsp, rfl⟩
          · simp [hl] at hb
  | .varDecl x e =>
      simp only [stmtBinding] at h
      by_cases hx : x = n
      · subst hx; simp [stmtBindingNames]
      · simp [hx] at h
  | .funcDecl x fr =>
      simp only [stmtBinding] at h
      by_cases hx : x = n
      · subst hx; simp [stmtBindingNames]
      · simp [hx] at h
  | .exportDefault e => simp [stmtBinding] at h
  | .exprStmt e => simp [stmtBinding] at h

/-- A canonical binding found by `getBinding` comes from an actual
named import specifier of an actual import statement. -/
theorem getBinding_importNamed (m : Module) (n imp src : String)
    (h : getBinding m n = some (.importNamed imp src)) :
    ∃ specs, Stmt.importDecl src specs ∈ m ∧ ImportSpec.named n imp ∈ specs := by
  obtain ⟨s, hs, hb⟩ := List.exists_of_findSome?_eq_some h
  match s with
  | .importDecl source specs =>
      simp only [stmtBinding] at hb
      obtain ⟨sp, hsp, hspb⟩ := List.exists_of_findSome?_eq_some hb
      match sp with
      | .named localName imported =>
          by_cases hl : localName = n
          · subst hl
            simp only [if_pos rfl, Option.some.injEq, BindingKind.importNamed.injEq] at hspb
            rcases hspb with ⟨rfl, rfl⟩
            exact ⟨specs, hs, hsp⟩
          · simp [hl] at hspb
      | .defaultSpec localName =>
          by_cases hl : localName = n
          · subst hl; simp at hspb
          · simp [hl] at hspb
      | .namespaceSpec localName =>
          by_cases hl : localName = n
          · subst hl; simp at hspb
          · simp [hl] at hspb
  | .varDecl x e =>
      simp only [stmtBinding] at hb
      by_cases hx : x = n <;> simp [hx] at hb
  | .funcDecl x fr =>
      simp only [stmtBinding] at hb
      by_cases hx : x = n <;> simp [hx] at hb
  | .exportDefault e => simp [stmtBinding] at hb
  | .exprStmt e => simp [stmtBinding] at hb

/-- In a list of specifiers with pairwise distinct local names, the specifier
search of `stmtBinding` finds the named specifier that is present. -/
theorem findSome?_spec_of_nodup (specs : List ImportSpec) (n imp source : String)
    (hnodup : (specs.map specLocal).Nodup)
    (hmem : ImportSpec.named n imp ∈ specs) :
    (specs.findSome? fun sp =>
        match sp with
        | .named localName imported =>
            if localName = n then some (BindingKind.importNamed imported source) else none
        | .defaultSpec localName =>
            if localName = n then some (.importDefault source) else none
        | .namespaceSpec localName =>
            if localName = n then some (.importNamespace source) else none) =
      some (.importNamed imp source) := by
  induction specs with
  | nil => simp at hmem
  | cons sp rest ih =>
      rcases List.mem_cons.mp hmem with hsp | hsp
      · subst hsp
        simp [List.findSome?]
      · have hn : n ∈ rest.map specLocal :=
          List.mem_map.mpr ⟨_, hsp, rfl⟩
        have hnd : (specLocal sp :: rest.map specLocal).Nodup := by
          simpa using hnodup
        have hhead : specLocal sp ≠ n := by
          intro hc
          exact (List.nodup_cons.mp hnd).1 (hc ▸ hn)
        have htail : (rest.map specLocal).Nodup := (List.nodup_cons.mp hnd).2
        rw [List.findSome?_cons]
        match sp with
        | .named localName imported =>
            simp only [specLocal] at hhead
            simp only [if_neg hhead]
            exact ih htail hsp
        | .defaultSpec localName =>
            simp only [specLocal] at hhead
            simp only [if_neg hhead]
            exact ih htail hsp
        | .namespaceSpec localName =>
            simp only [specLocal] at hhead
            simp only [if_neg hhead]
            exact ih htail hsp

/-- In a well-formed module, a named import specifier that is present is what
`getBinding` resolves its local name to. -/
theorem getBinding_of_importSpec (m : Module) (n imp src : String)
    (hwf : WFModule m) (specs : List ImportSpec)
    (hs : Stmt.importDecl src specs ∈ m) (hsp : ImportSpec.named n imp ∈ specs) :
    getBinding m n = some (.importNamed imp src) := by
  induction m with
  | nil => simp at hs
  | cons s rest ih =>
      have hwf' : WFModule rest := by
        have := hwf
        simp only [WFModule, bindingNames, List.flatMap_cons] at this
        exact List.Nodup.of_append_right this
      rcases List.mem_cons.mp hs with hhead | htail
      · subst hhead
        have hnodup : (specs.map specLocal).Nodup := by
          have := hwf
          simp only [WFModule, bindingNames, List.flatMap_cons] at this
          exact (List.Nodup.of_append_left this)
        show List.findSome? _ (_ :: _) = _
        rw [List.findSome?_cons]
        rw [show stmtBinding (Stmt.importDecl src specs) n =
          some (.importNamed imp src) from findSome?_spec_of_nodup specs n imp src hnodup hsp]
      · have hbound : n ∈ bindingNames rest := by
          simp only [bindingNames]
          exact List.mem_flatMap.mpr ⟨_, htail, List.mem_map.mpr ⟨_, hsp, rfl⟩⟩
        have hnot : stmtBinding s n = none := by
          cases hb : stmtBinding s n with
          | none => rfl
          | some b =>
              exfalso
              have hmem := stmtBinding_mem_bindingNames s n b hb
              have := hwf
              simp only [WFModule, bindingNames, List.flatMap_cons] at this
              exact (List.disjoint_of_nodup_append this) hmem hbound
        show List.findSome? _ (_ :: _) = _
        rw [List.findSome?_cons, hnot]
        exact ih hwf' htail

/-- The local identifier of an import specifier is among the module's
identifier occurrences. -/
theorem importSpec_occ_mem (m : Module) (src : String) (specs : List ImportSpec)
    (localName imp : String)
    (hs : Stmt.importDecl src specs ∈ m) (hsp : ImportSpec.named localName imp ∈ specs) :
    (⟨localName, Ctx.importSpec⟩ : Occ) ∈ moduleOccs m := by
  apply List.mem_flatMap.mpr
  refine ⟨_, hs, ?_⟩
  simp only [stmtOccs]
  apply List.mem_flatMap.mpr
  exact ⟨_, hsp, by simp [specOccs]⟩

/-- C8: on a well-formed module, `assertNotImported` fails (with the
fixed import-presence message) exactly when the canonical factory import is bound
somewhere in the module — including when the import is never used — and
succeeds silently otherwise. -/
theorem C8_assertNotImported (m : Module) (hwf : WFModule m) :
    assertNotImported m =
        .error ⟨"`defineRoute` cannot be used outside of route modules"⟩ ↔
      canonicalImportBound m := by
  constructor
  · intro h
    unfold assertNotImported at h
    cases hf : (moduleOccs m).find? (fun o => isDefineRoute m o.name) with
    | none => rw [hf] at h; simp at h
    | some o =>
        have hp := List.find?_some hf
        unfold isDefineRoute at hp
        cases hb : getBinding m o.name with
        | none => rw [hb] at hp; simp at hp
        | some b =>
            rw [hb] at hp
            have := (isCanonicallyImportedAs_iff b "defineRoute" "react-router").mp hp
            subst this
            obtain ⟨specs, hsmem, hspmem⟩ := getBinding_importNamed m o.name _ _ hb
            exact ⟨specs, o.name, hsmem, hspmem⟩
  · rintro ⟨specs, localName, hsmem, hspmem⟩
    have hb : getBinding m localName = some (.importNamed "defineRoute" "react-router") :=
      getBinding_of_importSpec m localName _ _ hwf specs hsmem hspmem
    have hocc := importSpec_occ_mem m _ specs localName _ hsmem hspmem
    have hpred : isDefineRoute m localName = true := by
      unfold isDefineRoute
      rw [hb]
      exact (isCanonicallyImportedAs_iff _ _ _).mpr rfl
    unfold assertNotImported
    cases hf : (moduleOccs m).find? (fun o => isDefineRoute m o.name) with
    | none =>
        exfalso
        have := List.find?_eq_none.mp hf ⟨localName, Ctx.importSpec⟩ hocc
        exact this hpred
    | some o => rfl

/-- Witness for C8 on a module whose only statement is an unused
canonical import: `assertNotImported` fails even though the import is never used. -/
theorem C8_witness :
    assertNotImported exUnusedImport =
        .error ⟨"`defineRoute` cannot be used outside of route modules"⟩ ↔
      canonicalImportBound exUnusedImport :=
  C8_assertNotImported exUnusedImport (by decide)

/-! ## Dead-code elimination: basic facts -/

theorem stmtDeclares_weight_pos (s : Stmt) (n : String)
    (h : stmtDeclares s n = true) : 0 < stmtWeight s := by
  match s with
  | .importDecl src specs => simp [stmtWeight]
  | .varDecl x e => simp [stmtWeight]
  | .funcDecl x fr => simp [stmtWeight]
  | .exportDefault e => simp [stmtDeclares] at h
  | .exprStmt e => simp [stmtDeclares] at h

theorem moduleWeight_zero_no_decl (m : Module) (h : moduleWeight m = 0) :
    ∀ n, ¬declaredIn m n := by
  intro n hn
  obtain ⟨s, hs, hdecl⟩ := hn
  have hw : stmtWeight s = 0 := by
    have := (List.sum_eq_zero_iff.mp h) (stmtWeight s) (List.mem_map.mpr ⟨s, hs, rfl⟩)
    exact this
  have := stmtDeclares_weight_pos s n hdecl
  omega

theorem dceStepStmt_some_weight (orig refs : List String) (s s' : Stmt)
    (h : dceStepStmt orig refs s = some s') : stmtWeight s' ≤ stmtWeight s := by
  match s with
  | .varDecl x e =>
      simp only [dceStepStmt] at h
      by_cases hc : x ∈ orig ∧ x ∉ refs
      · simp [hc] at h
      · simp only [if_neg hc, Option.some.injEq] at h
        subst h; exact le_refl _
  | .funcDecl x fr =>
      simp only [dceStepStmt] at h
      by_cases hc : x ∈ orig ∧ x ∉ refs
      · simp [hc] at h
      · simp only [if_neg hc, Option.some.injEq] at h
        subst h; exact le_refl _
  | .importDecl src specs =>
      simp only [dceStepStmt] at h
      split at h
      · exact absurd h (by simp)
      · have hx := Option.some.inj h
        subst hx
        simp only [stmtWeight]
        have := List.length_filter_le
          (fun sp => ¬(specLocal sp ∈ orig ∧ specLocal sp ∉ refs) : ImportSpec → Bool) specs
        omega
  | .exportDefault e =>
      simp only [dceStepStmt, Option.some.injEq] at h
      subst h; exact le_refl _
  | .exprStmt e =>
      simp only [dceStepStmt, Option.some.injEq] at h
      subst h; exact le_refl _

theorem dceStepStmt_refs (orig refs : List String) (s s' : Stmt)
    (h : dceStepStmt orig refs s = some s') : stmtRefs s' = stmtRefs s := by
  match s with
  | .varDecl x e =>
      simp only [dceStepStmt] at h
      by_cases hc : x ∈ orig ∧ x ∉ refs
      · simp [hc] at h
      · simp only [if_neg hc, Option.some.injEq] at h
        subst h; rfl
  | .funcDecl x fr =>
      simp only [dceStepStmt] at h
      by_cases hc : x ∈ orig ∧ x ∉ refs
      · simp [hc] at h
      · simp only [if_neg hc, Option.some.injEq] at h
        subst h; rfl
  | .importDecl src specs =>
      simp only [dceStepStmt] at h
      split at h
      · exact absurd h (by simp)
      · have hx := Option.some.inj h
        subst hx; rfl
  | .exportDefault e =>
      simp only [dceStepStmt, Option.some.injEq] at h
      subst h; rfl
  | .exprStmt e =>
      simp only [dceStepStmt, Option.some.injEq] at h
      subst h; rfl

theorem dceStepStmt_exportDefault_some (orig refs : List String) (s s' : Stmt)
    (h : dceStepStmt orig refs s = some s') : stmtExportDefault s' = stmtExportDefault s := by
  match s with
  | .varDecl x e =>
      simp only [dceStepStmt] at h
      by_cases hc : x ∈ orig ∧ x ∉ refs
      · simp [hc] at h
      · simp only [if_neg hc, Option.some.injEq] at h
        subst h; rfl
  | .funcDecl x fr =>
      simp only [dceStepStmt] at h
      by_cases hc : x ∈ orig ∧ x ∉ refs
      · simp [hc] at h
      · simp only [if_neg hc, Option.some.injEq] at h
        subst h; rfl
  | .importDecl src specs =>
      simp only [dceStepStmt] at h
      split at h
      · exact absurd h (by simp)
      · have hx := Option.some.inj h
        subst hx; rfl
  | .exportDefault e =>
      simp only [dceStepStmt, Option.some.injEq] at h
      subst h; rfl
  | .exprStmt e =>
      simp only [dceStepStmt, Option.some.injEq] at h
      subst h; rfl

theorem dceStepStmt_none_exportDefault (orig refs : List String) (s : Stmt)
    (h : dceStepStmt orig refs s = none) : stmtExportDefault s = none := by
  match s with
  | .varDecl x e => rfl
  | .funcDecl x fr => rfl
  | .importDecl src specs => rfl
  | .exportDefault e => simp [dceStepStmt] at h
  | .exprStmt e => simp [dceStepStmt] at h

theorem dceStepStmt_eq_self (orig refs : List String) (s : Stmt)
    (h : ∀ n, stmtDeclares s n = true → n ∈ orig → n ∈ refs) :
    dceStepStmt orig refs s = some s := by
  match s with
  | .varDecl x e =>
      have : ¬(x ∈ orig ∧ x ∉ refs) := by
        rintro ⟨h1, h2⟩
        exact h2 (h x (by simp [stmtDeclares]) h1)
      simp [dceStepStmt, this]
  | .funcDecl x fr =>
      have : ¬(x ∈ orig ∧ x ∉ refs) := by
        rintro ⟨h1, h2⟩
        exact h2 (h x (by simp [stmtDeclares]) h1)
      simp [dceStepStmt, this]
  | .importDecl src specs =>
      have hall : ∀ sp ∈ specs, (¬(specLocal sp ∈ orig ∧ specLocal sp ∉ refs) : Bool) = true := by
        intro sp hsp
        simp only [decide_eq_true_eq]
        rintro ⟨h1, h2⟩
        refine h2 (h (specLocal sp) ?_ h1)
        simp only [stmtDeclares]
        exact List.any_eq_true.mpr ⟨sp, hsp, by simp⟩
      have hfilter : (specs.filter fun sp => ¬(specLocal sp ∈ orig ∧ specLocal sp ∉ refs)) = specs :=
        List.filter_eq_self.mpr hall
      simp only [dceStepStmt, hfilter]
      by_cases hs : specs = []
      · subst hs; simp
      · simp [hs]
  | .exportDefault e => rfl
  | .exprStmt e => rfl

theorem filterMap_weight_le (orig refs : List String) :
    ∀ l : List Stmt, moduleWeight (l.filterMap (dceStepStmt orig refs)) ≤ moduleWeight l := by
  intro l
  induction l with
  | nil => simp [moduleWeight]
  | cons s rest ih =>
      rw [List.filterMap_cons]
      cases hs : dceStepStmt orig refs s with
      | none =>
          simp only [moduleWeight, List.map_cons, List.sum_cons]
          have : moduleWeight (rest.filterMap (dceStepStmt orig refs)) ≤ moduleWeight rest := ih
          simp only [moduleWeight] at this
          omega
      | some s' =>
          simp only [moduleWeight, List.map_cons, List.sum_cons]
          have h1 := dceStepStmt_some_weight orig refs s s' hs
          have h2 : moduleWeight (rest.filterMap (dceStepStmt orig refs)) ≤ moduleWeight rest := ih
          simp only [moduleWeight] at h2
          omega

theorem filterMap_weight_lt (orig refs : List String) :
    ∀ (l : List Stmt) (n : String),
      (∃ s ∈ l, stmtDeclares s n = true) → n ∈ orig → n ∉ refs →
      moduleWeight (l.filterMap (dceStepStmt orig refs)) < moduleWeight l := by
  intro l
  induction l with
  | nil => rintro n ⟨s, hs, _⟩ _ _; simp at hs
  | cons s rest ih =>
      rintro n ⟨s₀, hs₀, hdecl⟩ ho hr
      rcases List.mem_cons.mp hs₀ with hhead | htail
      · subst hhead
        have hstrict : dceStepStmt orig refs s₀ = none ∨
            ∃ s', dceStepStmt orig refs s₀ = some s' ∧ stmtWeight s' < stmtWeight s₀ := by
          match s₀ with
          | .varDecl x e =>
              left
              have hx : x = n := by
                simpa [stmtDeclares] using hdecl
              subst hx
              simp [dceStepStmt, ho, hr]
          | .funcDecl x fr =>
              left
              have hx : x = n := by
                simpa [stmtDeclares] using hdecl
              subst hx
              simp [dceStepStmt, ho, hr]
          | .importDecl src specs =>
              have hsp : ∃ sp ∈ specs, specLocal sp = n := by
                simpa [stmtDeclares, List.any_eq_true] using hdecl
              obtain ⟨sp, hspmem, hsploc⟩ := hsp
              have hdrop : (¬(specLocal sp ∈ orig ∧ specLocal sp ∉ refs) : Bool) = false := by
                simp [hsploc, ho, hr]
              have hlt : (specs.filter fun sp =>
                  ¬(specLocal sp ∈ orig ∧ specLocal sp ∉ refs)).length < specs.length := by
                apply List.length_filter_lt_length_iff_exists.mpr
                exact ⟨sp, hspmem, by simp [hsploc, ho, hr]⟩
              simp only [dceStepStmt]
              by_cases hc : (specs.filter fun sp =>
                  ¬(specLocal sp ∈ orig ∧ specLocal sp ∉ refs)) = [] ∧ specs ≠ []
              · left
                rw [if_pos hc]
              · right
                refine ⟨_, by rw [if_neg hc], ?_⟩
                simp only [stmtWeight]
                omega
          | .exportDefault e => simp [stmtDeclares] at hdecl
          | .exprStmt e => simp [stmtDeclares] at hdecl
        rw [List.filterMap_cons]
        have hle := filterMap_weight_le orig refs rest
        rcases hstrict with hnone | ⟨s', hsome, hlt⟩
        · rw [hnone]
          have hpos := stmtDeclares_weight_pos s₀ n hdecl
          simp only [moduleWeight, List.map_cons, List.sum_cons] at *
          omega
        · rw [hsome]
          simp only [moduleWeight, List.map_cons, List.sum_cons] at *
          omega
      · have := ih n ⟨s₀, htail, hdecl⟩ ho hr
        rw [List.filterMap_cons]
        cases hs : dceStepStmt orig refs s with
        | none =>
            have hle := dceStepStmt_some_weight
            simp only [moduleWeight, List.map_cons, List.sum_cons] at *
            omega
        | some s' =>
            have hle := dceStepStmt_some_weight orig refs s s' hs
            simp only [moduleWeight, List.map_cons, List.sum_cons] at *
            omega

theorem dceStep_weight_le (orig : List String) (m : Module) :
    moduleWeight (dceStep orig m) ≤ moduleWeight m :=
  filterMap_weight_le orig (moduleRefs m) m

theorem dceStep_weight_lt (orig : List String) (m : Module) (n : String)
    (hd : declaredIn m n) (ho : n ∈ orig) (hr : n ∉ moduleRefs m) :
    moduleWeight (dceStep orig m) < moduleWeight m :=
  filterMap_weight_lt orig (moduleRefs m) m n hd ho hr

theorem filterMap_eq_self_of (f : Stmt → Option Stmt) :
    ∀ l : List Stmt, (∀ s ∈ l, f s = some s) → l.filterMap f = l := by
  intro l
  induction l with
  | nil => intro _; rfl
  | cons s rest ih =>
      intro h
      rw [List.filterMap_cons, h s (List.mem_cons_self s rest),
        ih (fun q hq => h q (List.mem_cons_of_mem s hq))]

theorem dceStep_eq_self (orig : List String) (m : Module)
    (h : ∀ n, declaredIn m n → n ∈ orig → n ∈ moduleRefs m) :
    dceStep orig m = m := by
  apply filterMap_eq_self_of
  intro s hs
  apply dceStepStmt_eq_self
  intro n hdecl ho
  exact h n ⟨s, hs, hdecl⟩ ho

theorem dceIter_fixed (orig : List String) :
    ∀ (fuel : Nat) (m : Module),
      (∀ n, declaredIn m n → n ∈ orig → n ∈ moduleRefs m) →
      dceIter orig fuel m = m := by
  intro fuel
  induction fuel with
  | zero => intro m _; rfl
  | succ fuel ih =>
      intro m h
      show dceIter orig fuel (dceStep orig m) = m
      rw [dceStep_eq_self orig m h]
      exact ih m h

theorem dceIter_noDead (orig : List String) :
    ∀ (fuel : Nat) (m : Module), moduleWeight m ≤ fuel →
      ∀ n, declaredIn (dceIter orig fuel m) n → n ∈ orig →
        n ∈ moduleRefs (dceIter orig fuel m) := by
  intro fuel
  induction fuel with
  | zero =>
      intro m hw n hdecl _
      have : moduleWeight m = 0 := Nat.le_zero.mp hw
      exact absurd hdecl (moduleWeight_zero_no_decl m this n)
  | succ fuel ih =>
      intro m hw n hdecl ho
      by_cases hd : ∀ n', declaredIn m n' → n' ∈ orig → n' ∈ moduleRefs m
      · have hfix : dceIter orig (fuel + 1) m = m := dceIter_fixed orig (fuel + 1) m hd
        rw [hfix] at hdecl ⊢
        exact hd n hdecl ho
      · push_neg at hd
        obtain ⟨n', hdecl', ho', hr'⟩ := hd
        have hlt := dceStep_weight_lt orig m n' hdecl' ho' hr'
        have : moduleWeight (dceStep orig m) ≤ fuel := by omega
        show n ∈ moduleRefs (dceIter orig fuel (dceStep orig m))
        exact ih (dceStep orig m) this n hdecl ho

/-- The fixed-point property of the modelled dead-code elimination: no
remaining declaration is both a candidate (originally referenced) and
unreferenced in the result. -/
theorem deadCodeElimination_noDead (m : Module) (orig : List String) :
    ∀ n, declaredIn (deadCodeElimination m orig) n → n ∈ orig →
      n ∈ moduleRefs (deadCodeElimination m orig) :=
  dceIter_noDead orig (moduleWeight m) m (le_refl _)

/-- Eliminating with the module's own reference set as candidates is the
identity: nothing is simultaneously referenced (a candidate) and
unreferenced. -/
theorem deadCodeElimination_self (m : Module) :
    deadCodeElimination m (moduleRefs m) = m :=
  dceIter_fixed (moduleRefs m) (moduleWeight m) m (fun _ _ h => h)

/-! ## Dead-code elimination: preservation facts -/

theorem mem_moduleRefs_of (m : Module) (s : Stmt) (x : String)
    (hs : s ∈ m) (hx : x ∈ stmtRefs s) : x ∈ moduleRefs m :=
  List.mem_flatMap.mpr ⟨s, hs, hx⟩

theorem dceStep_refs_subset (orig : List String) (m : Module) :
    ∀ x ∈ moduleRefs (dceStep orig m), x ∈ moduleRefs m := by
  intro x hx
  obtain ⟨s', hs', hxs'⟩ := List.mem_flatMap.mp hx
  obtain ⟨s, hs, hf⟩ := List.mem_filterMap.mp hs'
  rw [dceStepStmt_refs _ _ _ _ hf] at hxs'
  exact mem_moduleRefs_of m s x hs hxs'

theorem dceIter_refs_subset (orig : List String) :
    ∀ (fuel : Nat) (m : Module) (x : String),
      x ∈ moduleRefs (dceIter orig fuel m) → x ∈ moduleRefs m := by
  intro fuel
  induction fuel with
  | zero => intro m x hx; exact hx
  | succ fuel ih =>
      intro m x hx
      exact dceStep_refs_subset orig m x (ih (dceStep orig m) x hx)

theorem dceStep_keeps_decl (orig : List String) (m : Module) (n : String)
    (hd : declaredIn m n) (hr : n ∈ moduleRefs m) : declaredIn (dceStep orig m) n := by
  obtain ⟨s, hs, hdecl⟩ := hd
  match s with
  | .varDecl x e =>
      have hx : x = n := by simpa [stmtDeclares] using hdecl
      subst hx
      have hcond : ¬(x ∈ orig ∧ x ∉ moduleRefs m) := by
        rintro ⟨_, h2⟩; exact h2 hr
      refine ⟨.varDecl x e, List.mem_filterMap.mpr ⟨_, hs, ?_⟩, hdecl⟩
      simp [dceStepStmt, hcond]
  | .funcDecl x fr =>
      have hx : x = n := by simpa [stmtDeclares] using hdecl
      subst hx
      have hcond : ¬(x ∈ orig ∧ x ∉ moduleRefs m) := by
        rintro ⟨_, h2⟩; exact h2 hr
      refine ⟨.funcDecl x fr, List.mem_filterMap.mpr ⟨_, hs, ?_⟩, hdecl⟩
      simp [dceStepStmt, hcond]
  | .importDecl src specs =>
      obtain ⟨sp, hspmem, hsploc⟩ : ∃ sp ∈ specs, specLocal sp = n := by
        simpa [stmtDeclares, List.any_eq_true] using hdecl
      have hkeep : (¬(specLocal sp ∈ orig ∧ specLocal sp ∉ moduleRefs m) : Bool) = true := by
        simp only [hsploc, decide_eq_true_eq]
        rintro ⟨_, h2⟩; exact h2 hr
      have hspmem' : sp ∈ specs.filter
          (fun sp => ¬(specLocal sp ∈ orig ∧ specLocal sp ∉ moduleRefs m)) :=
        List.mem_filter.mpr ⟨hspmem, hkeep⟩
      have hne : specs.filter
          (fun sp => ¬(specLocal sp ∈ orig ∧ specLocal sp ∉ moduleRefs m)) ≠ [] :=
        List.ne_nil_of_mem hspmem'
      refine ⟨.importDecl src (specs.filter
          (fun sp => ¬(specLocal sp ∈ orig ∧ specLocal sp ∉ moduleRefs m))),
        List.mem_filterMap.mpr ⟨_, hs, ?_⟩, ?_⟩
      · simp only [dceStepStmt]
        rw [if_neg (by rintro ⟨h1, _⟩; exact hne h1)]
      · simp only [stmtDeclares]
        exact List.any_eq_true.mpr ⟨sp, hspmem', by simp [hsploc]⟩
  | .exportDefault e => simp [stmtDeclares] at hdecl
  | .exprStmt e => simp [stmtDeclares] at hdecl

theorem dceIter_keeps_decl (orig : List String) :
    ∀ (fuel : Nat) (m : Module) (n : String),
      declaredIn m n → n ∈ moduleRefs (dceIter orig fuel m) →
      declaredIn (dceIter orig fuel m) n := by
  intro fuel
  induction fuel with
  | zero => intro m n hd _; exact hd
  | succ fuel ih =>
      intro m n hd hr
      have hr' : n ∈ moduleRefs (dceStep orig m) :=
        dceIter_refs_subset orig fuel (dceStep orig m) n hr
      have hrm : n ∈ moduleRefs m := dceStep_refs_subset orig m n hr'
      exact ih (dceStep orig m) n (dceStep_keeps_decl orig m n hd hrm) hr

theorem stmtBinding_import_filter (src : String) (specs : List ImportSpec)
    (n : String) (b : BindingKind) (orig refs : List String)
    (hb : stmtBinding (.importDecl src specs) n = some b)
    (hn : ¬(n ∈ orig ∧ n ∉ refs)) :
    stmtBinding (.importDecl src (specs.filter
        fun sp => ¬(specLocal sp ∈ orig ∧ specLocal sp ∉ refs))) n = some b := by
  simp only [stmtBinding] at hb ⊢
  induction specs with
  | nil => simp at hb
  | cons sp rest ih =>
      cases sp with
      | named localName imported =>
          by_cases hloc : localName = n
          · subst hloc
            have hkeep : (¬(localName ∈ orig ∧ localName ∉ refs) : Bool) = true := by
              simpa only [decide_eq_true_eq] using hn
            rw [show (ImportSpec.named localName imported :: rest).filter
                (fun sp => ¬(specLocal sp ∈ orig ∧ specLocal sp ∉ refs)) =
                ImportSpec.named localName imported :: rest.filter
                  (fun sp => ¬(specLocal sp ∈ orig ∧ specLocal sp ∉ refs)) from by
              simp only [List.filter_cons, specLocal]
              rw [hkeep]
              simp]
            simp only [List.findSome?_cons] at hb ⊢
            simpa using hb
          · simp only [List.findSome?_cons, if_neg hloc] at hb
            cases hkeep : (¬(localName ∈ orig ∧ localName ∉ refs) : Bool) with
            | true =>
                rw [show (ImportSpec.named localName imported :: rest).filter
                    (fun sp => ¬(specLocal sp ∈ orig ∧ specLocal sp ∉ refs)) =
                    ImportSpec.named localName imported :: rest.filter
                      (fun sp => ¬(specLocal sp ∈ orig ∧ specLocal sp ∉ refs)) from by
                  simp only [List.filter_cons, specLocal]
                  rw [hkeep]
                  simp]
                simp only [List.findSome?_cons, if_neg hloc]
                exact ih hb
            | false =>
                rw [show (ImportSpec.named localName imported :: rest).filter
                    (fun sp => ¬(specLocal sp ∈ orig ∧ specLocal sp ∉ refs)) =
                    rest.filter
                      (fun sp => ¬(specLocal sp ∈ orig ∧ specLocal sp ∉ refs)) from by
                  simp only [List.filter_cons, specLocal]
                  rw [hkeep]
                  simp]
                exact ih hb
      | defaultSpec localName =>
          by_cases hloc : localName = n
          · subst hloc
            have hkeep : (¬(localName ∈ orig ∧ localName ∉ refs) : Bool) = true := by
              simpa only [decide_eq_true_eq] using hn
            rw [show (ImportSpec.defaultSpec localName :: rest).filter
                (fun sp => ¬(specLocal sp ∈ orig ∧ specLocal sp ∉ refs)) =
                ImportSpec.defaultSpec localName :: rest.filter
                  (fun sp => ¬(specLocal sp ∈ orig ∧ specLocal sp ∉ refs)) from by
              simp only [List.filter_cons, specLocal]
              rw [hkeep]
              simp]
            simp only [List.findSome?_cons] at hb ⊢
            simpa using hb
          · simp only [List.findSome?_cons, if_neg hloc] at hb
            cases hkeep : (¬(localName ∈ orig ∧ localName ∉ refs) : Bool) with
            | true =>
                rw [show (ImportSpec.defaultSpec localName :: rest).filter
                    (fun sp => ¬(specLocal sp ∈ orig ∧ specLocal sp ∉ refs)) =
                    ImportSpec.defaultSpec localName :: rest.filter
                      (fun sp => ¬(specLocal sp ∈ orig ∧ specLocal sp ∉ refs)) from by
                  simp only [List.filter_cons, specLocal]
                  rw [hkeep]
                  simp]
                simp only [List.findSome?_cons, if_neg hloc]
                exact ih hb
            | false =>
                rw [show (ImportSpec.defaultSpec localName :: rest).filter
                    (fun sp => ¬(specLocal sp ∈ orig ∧ specLocal sp ∉ refs)) =
                    rest.filter
                      (fun sp => ¬(specLocal sp ∈ orig ∧ specLocal sp ∉ refs)) from by
                  simp only [List.filter_cons, specLocal]
                  rw [hkeep]
                  simp]
                exact ih hb
      | namespaceSpec localName =>
          by_cases hloc : localName = n
          · subst hloc
            have hkeep : (¬(localName ∈ orig ∧ localName ∉ refs) : Bool) = true := by
              simpa only [decide_eq_true_eq] using hn
            rw [show (ImportSpec.namespaceSpec localName :: rest).filter
                (fun sp => ¬(specLocal sp ∈ orig ∧ specLocal sp ∉ refs)) =
                ImportSpec.namespaceSpec localName :: rest.filter
                  (fun sp => ¬(specLocal sp ∈ orig ∧ specLocal sp ∉ refs)) from by
              simp only [List.filter_cons, specLocal]
              rw [hkeep]
              simp]
            simp only [List.findSome?_cons] at hb ⊢
            simpa using hb
          · simp only [List.findSome?_cons, if_neg hloc] at hb
            cases hkeep : (¬(localName ∈ orig ∧ localName ∉ refs) : Bool) with
            | true =>
                rw [show (ImportSpec.namespaceSpec localName :: rest).filter
                    (fun sp => ¬(specLocal sp ∈ orig ∧ specLocal sp ∉ refs)) =
                    ImportSpec.namespaceSpec localName :: rest.filter
                      (fun sp => ¬(specLocal sp ∈ orig ∧ specLocal sp ∉ refs)) from by
                  simp only [List.filter_cons, specLocal]
                  rw [hkeep]
                  simp]
                simp only [List.findSome?_cons, if_neg hloc]
                exact ih hb
            | false =>
                rw [show (ImportSpec.namespaceSpec localName :: rest).filter
                    (fun sp => ¬(specLocal sp ∈ orig ∧ specLocal sp ∉ refs)) =
                    rest.filter
                      (fun sp => ¬(specLocal sp ∈ orig ∧ specLocal sp ∉ refs)) from by
                  simp only [List.filter_cons, specLocal]
                  rw [hkeep]
                  simp]
                exact ih hb

theorem dceStep_keeps_binding (orig : List String) (m : Module) (n : String) (b : BindingKind)
    (h : ∃ s ∈ m, stmtBinding s n = some b) (hr : n ∈ moduleRefs m) :
    ∃ s' ∈ dceStep orig m, stmtBinding s' n = some b := by
  obtain ⟨s, hs, hb⟩ := h
  have hn : ¬(n ∈ orig ∧ n ∉ moduleRefs m) := by
    rintro ⟨_, h2⟩; exact h2 hr
  match s with
  | .varDecl x e =>
      have hx : x = n := by
        by_cases hc : x = n
        · exact hc
        · simp [stmtBinding, hc] at hb
      subst hx
      refine ⟨.varDecl x e, List.mem_filterMap.mpr ⟨_, hs, ?_⟩, hb⟩
      simp [dceStepStmt, hn]
  | .funcDecl x fr =>
      have hx : x = n := by
        by_cases hc : x = n
        · exact hc
        · simp [stmtBinding, hc] at hb
      subst hx
      refine ⟨.funcDecl x fr, List.mem_filterMap.mpr ⟨_, hs, ?_⟩, hb⟩
      simp [dceStepStmt, hn]
  | .importDecl src specs =>
      have hb' := stmtBinding_import_filter src specs n b orig (moduleRefs m) hb hn
      have hne : (specs.filter
          fun sp => ¬(specLocal sp ∈ orig ∧ specLocal sp ∉ moduleRefs m)) ≠ [] := by
        intro hc
        rw [hc] at hb'
        simp [stmtBinding] at hb'
      refine ⟨_, List.mem_filterMap.mpr ⟨_, hs, ?_⟩, hb'⟩
      simp only [dceStepStmt]
      rw [if_neg (by rintro ⟨h1, _⟩; exact hne h1)]
  | .exportDefault e => simp [stmtBinding] at hb
  | .exprStmt e => simp [stmtBinding] at hb

theorem dceIter_keeps_binding (orig : List String) :
    ∀ (fuel : Nat) (m : Module) (n : String) (b : BindingKind),
      (∃ s ∈ m, stmtBinding s n = some b) → n ∈ moduleRefs (dceIter orig fuel m) →
      ∃ s' ∈ dceIter orig fuel m, stmtBinding s' n = some b := by
  intro fuel
  induction fuel with
  | zero => intro m n b h _; exact h
  | succ fuel ih =>
      intro m n b h hr
      have hr' : n ∈ moduleRefs (dceStep orig m) :=
        dceIter_refs_subset orig fuel (dceStep orig m) n hr
      have hrm : n ∈ moduleRefs m := dceStep_refs_subset orig m n hr'
      exact ih (dceStep orig m) n b (dceStep_keeps_binding orig m n b h hrm) hr

theorem filterMap_exports (orig refs : List String) :
    ∀ l : List Stmt,
      exportDefaults (l.filterMap (dceStepStmt orig refs)) = exportDefaults l := by
  intro l
  induction l with
  | nil => rfl
  | cons s rest ih =>
      rw [List.filterMap_cons]
      cases hs : dceStepStmt orig refs s with
      | none =>
          have hnone := dceStepStmt_none_exportDefault _ _ _ hs
          simp only [exportDefaults, List.filterMap_cons, hnone]
          exact ih
      | some s' =>
          have heq := dceStepStmt_exportDefault_some _ _ _ _ hs
          simp only [exportDefaults, List.filterMap_cons, heq]
          cases stmtExportDefault s with
          | none => exact ih
          | some e => simpa using ih

theorem dceStep_exports (orig : List String) (m : Module) :
    exportDefaults (dceStep orig m) = exportDefaults m :=
  filterMap_exports orig (moduleRefs m) m

theorem dceIter_exports (orig : List String) :
    ∀ (fuel : Nat) (m : Module),
      exportDefaults (dceIter orig fuel m) = exportDefaults m := by
  intro fuel
  induction fuel with
  | zero => intro m; rfl
  | succ fuel ih =>
      intro m
      show exportDefaults (dceIter orig fuel (dceStep orig m)) = _
      rw [ih (dceStep orig m), dceStep_exports]

theorem dceStepStmt_bindingNames_sublist (orig refs : List String) (s s' : Stmt)
    (h : dceStepStmt orig refs s = some s') :
    List.Sublist (stmtBindingNames s') (stmtBindingNames s) := by
  match s with
  | .varDecl x e =>
      simp only [dceStepStmt] at h
      split at h
      · exact absurd h (by simp)
      · have hx := Option.some.inj h
        subst hx; exact List.Sublist.refl _
  | .funcDecl x fr =>
      simp only [dceStepStmt] at h
      split at h
      · exact absurd h (by simp)
      · have hx := Option.some.inj h
        subst hx; exact List.Sublist.refl _
  | .importDecl src specs =>
      simp only [dceStepStmt] at h
      split at h
      · exact absurd h (by simp)
      · have hx := Option.some.inj h
        subst hx
        exact List.Sublist.map specLocal (List.filter_sublist specs)
  | .exportDefault e =>
      have hx := Option.some.inj h
      subst hx; exact List.Sublist.refl _
  | .exprStmt e =>
      have hx := Option.some.inj h
      subst hx; exact List.Sublist.refl _

theorem filterMap_bindingNames_sublist (orig refs : List String) :
    ∀ l : List Stmt,
      List.Sublist (bindingNames (l.filterMap (dceStepStmt orig refs))) (bindingNames l) := by
  intro l
  induction l with
  | nil => exact List.Sublist.refl _
  | cons s rest ih =>
      rw [List.filterMap_cons]
      cases hs : dceStepStmt orig refs s with
      | none =>
          simp only [bindingNames, List.flatMap_cons]
          exact ih.trans (List.sublist_append_right _ _)
      | some s' =>
          simp only [bindingNames, List.flatMap_cons]
          exact List.Sublist.append (dceStepStmt_bindingNames_sublist _ _ _ _ hs) ih

theorem dceIter_bindingNames_sublist (orig : List String) :
    ∀ (fuel : Nat) (m : Module),
      List.Sublist (bindingNames (dceIter orig fuel m)) (bindingNames m) := by
  intro fuel
  induction fuel with
  | zero => intro m; exact List.Sublist.refl _
  | succ fuel ih =>
      intro m
      exact (ih (dceStep orig m)).trans
        (filterMap_bindingNames_sublist orig (moduleRefs m) m)

theorem dceIter_wf (orig : List String) (fuel : Nat) (m : Module)
    (h : WFModule m) : WFModule (dceIter orig fuel m) :=
  List.Nodup.sublist (dceIter_bindingNames_sublist orig fuel m) h

theorem dceStep_mem (orig : List String) (m : Module) (s' : Stmt)
    (h : s' ∈ dceStep orig m) :
    ∃ s ∈ m, s' = s ∨ ∃ src specs specs',
      s = .importDecl src specs ∧ s' = .importDecl src specs' ∧
        ∀ sp ∈ specs', sp ∈ specs := by
  obtain ⟨s, hs, hf⟩ := List.mem_filterMap.mp h
  refine ⟨s, hs, ?_⟩
  match s with
  | .varDecl x e =>
      simp only [dceStepStmt] at hf
      split at hf
      · exact absurd hf (by simp)
      · exact Or.inl (Option.some.inj hf).symm
  | .funcDecl x fr =>
      simp only [dceStepStmt] at hf
      split at hf
      · exact absurd hf (by simp)
      · exact Or.inl (Option.some.inj hf).symm
  | .importDecl src specs =>
      simp only [dceStepStmt] at hf
      split at hf
      · exact absurd hf (by simp)
      · refine Or.inr ⟨src, specs, _, rfl, (Option.some.inj hf).symm, ?_⟩
        intro sp hsp
        exact List.mem_of_mem_filter hsp
  | .exportDefault e => exact Or.inl (Option.some.inj hf).symm
  | .exprStmt e => exact Or.inl (Option.some.inj hf).symm

theorem dceIter_mem (orig : List String) :
    ∀ (fuel : Nat) (m : Module) (s' : Stmt),
      s' ∈ dceIter orig fuel m →
      ∃ s ∈ m, s' = s ∨ ∃ src specs specs',
        s = .importDecl src specs ∧ s' = .importDecl src specs' ∧
          ∀ sp ∈ specs', sp ∈ specs := by
  intro fuel
  induction fuel with
  | zero => intro m s' h; exact ⟨s', h, Or.inl rfl⟩
  | succ fuel ih =>
      intro m s' h
      obtain ⟨s₁, hs₁, hrel₁⟩ := ih (dceStep orig m) s' h
      obtain ⟨s, hs, hrel⟩ := dceStep_mem orig m s₁ hs₁
      refine ⟨s, hs, ?_⟩
      rcases hrel₁ with rfl | ⟨src₁, specs₁, specs₁', heq₁, hseq₁, hsub₁⟩
      · exact hrel
      · rcases hrel with rfl | ⟨src, specs, specs₂, heq, hseq, hsub⟩
        · exact Or.inr ⟨src₁, specs₁, specs₁', heq₁, hseq₁, hsub₁⟩
        · subst heq
          rw [hseq] at heq₁
          injection heq₁ with h1 h2
          subst h1
          subst h2
          exact Or.inr ⟨src, specs, specs₁', rfl, hseq₁, fun sp hsp => hsub sp (hsub₁ sp hsp)⟩

/-! ## Occurrence bookkeeping -/

theorem exprOccsList_eq :
    ∀ es : List Expr, exprOccsList es = es.flatMap (fun e => exprOccs e false) := by
  intro es
  induction es with
  | nil => rfl
  | cons e rest ih => simp [exprOccsList, ih]

theorem callChildOccsList_eq :
    ∀ (es : List Expr) (ed : Bool),
      callChildOccsList es ed = es.flatMap (fun e => callChildOccs e ed) := by
  intro es
  induction es with
  | nil => intro ed; rfl
  | cons e rest ih => intro ed; simp [callChildOccsList, ih]

theorem propOccsList_eq :
    ∀ ps : List RProp, propOccsList ps = ps.flatMap propOccs := by
  intro ps
  induction ps with
  | nil => rfl
  | cons p rest ih => simp [propOccsList, ih]

theorem dropIdxGo_sublist :
    ∀ (ps : List RProp) (i : Nat) (marked : List Nat),
      List.Sublist (dropIdxGo ps i marked) ps := by
  intro ps
  induction ps with
  | nil => intro i marked; simp [dropIdxGo]
  | cons p rest ih =>
      intro i marked
      simp only [dropIdxGo]
      by_cases hm : i ∈ marked
      · rw [if_pos hm]
        exact (ih (i + 1) marked).trans (List.sublist_cons_self p rest)
      · rw [if_neg hm]
        exact List.Sublist.cons₂ p (ih (i + 1) marked)

theorem dropIdx_sublist (ps : List RProp) (marked : List Nat) :
    List.Sublist (dropIdx ps marked) ps :=
  dropIdxGo_sublist ps 0 marked

theorem propOccsList_subset_of_sublist (ps ps' : List RProp)
    (h : List.Sublist ps' ps) : ∀ o ∈ propOccsList ps', o ∈ propOccsList ps := by
  intro o ho
  rw [propOccsList_eq] at ho ⊢
  obtain ⟨p, hp, hop⟩ := List.mem_flatMap.mp ho
  exact List.mem_flatMap.mpr ⟨p, h.subset hp, hop⟩

theorem removeProps_occs (e : Expr) (marked : List Nat) :
    ∀ o ∈ exprOccs (removeProps e marked) true, o ∈ exprOccs e true := by
  intro o ho
  match e with
  | .ident n => exact ho
  | .strLit s => exact ho
  | .arr es => exact ho
  | .func fr => exact ho
  | .other fr => exact ho
  | .obj ps =>
      simp only [removeProps, exprOccs] at ho ⊢
      exact propOccsList_subset_of_sublist ps _ (dropIdx_sublist ps marked) o ho
  | .call c args =>
      simp only [removeProps, exprOccs] at ho ⊢
      rcases List.mem_append.mp ho with hc | hargs
      · exact List.mem_append.mpr (Or.inl hc)
      · refine List.mem_append.mpr (Or.inr ?_)
        rw [callChildOccsList_eq] at hargs ⊢
        obtain ⟨a', ha', hoa'⟩ := List.mem_flatMap.mp hargs
        obtain ⟨a, ha, haeq⟩ := List.mem_map.mp ha'
        refine List.mem_flatMap.mpr ⟨a, ha, ?_⟩
        subst haeq
        match a with
        | .ident n => exact hoa'
        | .strLit s => exact hoa'
        | .arr es => exact hoa'
        | .func fr => exact hoa'
        | .other fr => exact hoa'
        | .call c' as' => exact hoa'
        | .obj ps =>
            simp only [callChildOccs] at hoa' ⊢
            exact propOccsList_subset_of_sublist ps _ (dropIdx_sublist ps marked) o hoa'

/-! ## The strip pass as a statement-wise relation -/

theorem stripStmt_rel (m : Module) (s s' : Stmt) (h : stripStmt m s = .ok s') :
    StripRel m s s' := by
  match s with
  | .exportDefault e =>
      simp only [stripStmt] at h
      cases ha : analyzeRouteExport m e with
      | error err => rw [ha] at h; simp at h
      | ok a =>
          rw [ha] at h
          simp only [Except.ok.injEq] at h
          exact Or.inr ⟨e, a, rfl, ha, h.symm⟩
  | .importDecl src specs =>
      simp only [stripStmt, Except.ok.injEq] at h
      exact Or.inl ⟨rfl, h.symm⟩
  | .varDecl x e =>
      simp only [stripStmt, Except.ok.injEq] at h
      exact Or.inl ⟨rfl, h.symm⟩
  | .funcDecl x fr =>
      simp only [stripStmt, Except.ok.injEq] at h
      exact Or.inl ⟨rfl, h.symm⟩
  | .exprStmt e =>
      simp only [stripStmt, Except.ok.injEq] at h
      exact Or.inl ⟨rfl, h.symm⟩

theorem stripModuleGo_rel (m : Module) :
    ∀ (ss ss' : List Stmt), stripModuleGo m ss = .ok ss' →
      List.Forall₂ (StripRel m) ss ss' := by
  intro ss
  induction ss with
  | nil =>
      intro ss' h
      simp only [stripModuleGo, Except.ok.injEq] at h
      subst h
      exact List.Forall₂.nil
  | cons s rest ih =>
      intro ss' h
      simp only [stripModuleGo] at h
      cases hs : stripStmt m s with
      | error err => rw [hs] at h; simp at h
      | ok s₁ =>
          rw [hs] at h
          cases hrest : stripModuleGo m rest with
          | error err => rw [hrest] at h; simp at h
          | ok rest₁ =>
              rw [hrest] at h
              simp only [Except.ok.injEq] at h
              subst h
              exact List.Forall₂.cons (stripStmt_rel m s s₁ hs) (ih rest₁ hrest)

theorem forall₂_mem_right {R : Stmt → Stmt → Prop} :
    ∀ {ss ss' : List Stmt}, List.Forall₂ R ss ss' →
      ∀ s' ∈ ss', ∃ s ∈ ss, R s s' := by
  intro ss ss' h
  induction h with
  | nil => intro s' hs'; simp at hs'
  | cons hr _ ih =>
      intro s' hs'
      rcases List.mem_cons.mp hs' with rfl | hs'
      · exact ⟨_, List.mem_cons_self _ _, hr⟩
      · obtain ⟨s, hs, hrs⟩ := ih s' hs'
        exact ⟨s, List.mem_cons_of_mem _ hs, hrs⟩

theorem forall₂_mem_left {R : Stmt → Stmt → Prop} :
    ∀ {ss ss' : List Stmt}, List.Forall₂ R ss ss' →
      ∀ s ∈ ss, ∃ s' ∈ ss', R s s' := by
  intro ss ss' h
  induction h with
  | nil => intro s hs; simp at hs
  | cons hr _ ih =>
      intro s hs
      rcases List.mem_cons.mp hs with rfl | hs
      · exact ⟨_, List.mem_cons_self _ _, hr⟩
      · obtain ⟨s', hs', hrs⟩ := ih s hs
        exact ⟨s', List.mem_cons_of_mem _ hs', hrs⟩

theorem StripRel.bindingNames_eq {m : Module} {s s' : Stmt} (h : StripRel m s s') :
    stmtBindingNames s' = stmtBindingNames s := by
  rcases h with ⟨_, rfl⟩ | ⟨e, a, rfl, _, rfl⟩
  · rfl
  · rfl

theorem StripRel.declares_eq {m : Module} {s s' : Stmt} (h : StripRel m s s') :
    ∀ n, stmtDeclares s' n = stmtDeclares s n := by
  rcases h with ⟨_, rfl⟩ | ⟨e, a, rfl, _, rfl⟩
  · intro n; rfl
  · intro n; rfl

theorem StripRel.binding_eq {m : Module} {s s' : Stmt} (h : StripRel m s s') :
    ∀ n, stmtBinding s' n = stmtBinding s n := by
  rcases h with ⟨_, rfl⟩ | ⟨e, a, rfl, _, rfl⟩
  · intro n; rfl
  · intro n; rfl

theorem StripRel.occs_subset {m : Module} {s s' : Stmt} (h : StripRel m s s') :
    ∀ o ∈ stmtOccs s', o ∈ stmtOccs s := by
  rcases h with ⟨_, rfl⟩ | ⟨e, a, rfl, _, rfl⟩
  · intro o ho; exact ho
  · intro o ho
    exact removeProps_occs e (serverMarks a) o ho

theorem forall₂_bindingNames {m : Module} :
    ∀ {ss ss' : List Stmt}, List.Forall₂ (StripRel m) ss ss' →
      bindingNames ss' = bindingNames ss := by
  intro ss ss' h
  induction h with
  | nil => rfl
  | cons hr _ ih =>
      simp only [bindingNames, List.flatMap_cons] at ih ⊢
      rw [hr.bindingNames_eq, ih]

theorem strip_bindingNames (m m' : Module) (h : stripModule m = .ok m') :
    bindingNames m' = bindingNames m :=
  forall₂_bindingNames (stripModuleGo_rel m m m' h)

theorem strip_wf (m m' : Module) (h : stripModule m = .ok m') (hwf : WFModule m) :
    WFModule m' := by
  unfold WFModule
  rw [strip_bindingNames m m' h]
  exact hwf

theorem strip_declaredIn (m m' : Module) (h : stripModule m = .ok m') (n : String) :
    declaredIn m n ↔ declaredIn m' n := by
  have hf := stripModuleGo_rel m m m' h
  constructor
  · rintro ⟨s, hs, hdecl⟩
    obtain ⟨s', hs', hr⟩ := forall₂_mem_left hf s hs
    exact ⟨s', hs', by rw [hr.declares_eq n]; exact hdecl⟩
  · rintro ⟨s', hs', hdecl⟩
    obtain ⟨s, hs, hr⟩ := forall₂_mem_right hf s' hs'
    exact ⟨s, hs, by rw [← hr.declares_eq n]; exact hdecl⟩

theorem strip_binding_exists (m m' : Module) (h : stripModule m = .ok m')
    (n : String) (b : BindingKind) :
    (∃ s ∈ m, stmtBinding s n = some b) ↔ (∃ s' ∈ m', stmtBinding s' n = some b) := by
  have hf := stripModuleGo_rel m m m' h
  constructor
  · rintro ⟨s, hs, hb⟩
    obtain ⟨s', hs', hr⟩ := forall₂_mem_left hf s hs
    exact ⟨s', hs', by rw [hr.binding_eq n]; exact hb⟩
  · rintro ⟨s', hs', hb⟩
    obtain ⟨s, hs, hr⟩ := forall₂_mem_right hf s' hs'
    exact ⟨s, hs, by rw [← hr.binding_eq n]; exact hb⟩

theorem strip_occs (m m' : Module) (h : stripModule m = .ok m') :
    ∀ o ∈ moduleOccs m', o ∈ moduleOccs m := by
  have hf := stripModuleGo_rel m m m' h
  intro o ho
  obtain ⟨s', hs', hos'⟩ := List.mem_flatMap.mp ho
  obtain ⟨s, hs, hr⟩ := forall₂_mem_right hf s' hs'
  exact List.mem_flatMap.mpr ⟨s, hs, hr.occs_subset o hos'⟩

theorem mem_exportDefaults (m : Module) (e : Expr) :
    e ∈ exportDefaults m ↔ ∃ s ∈ m, stmtExportDefault s = some e := by
  simp [exportDefaults, List.mem_filterMap]

theorem strip_exports (m m' : Module) (h : stripModule m = .ok m') :
    ∀ e' ∈ exportDefaults m', ∃ e ∈ exportDefaults m, ∃ a,
      analyzeRouteExport m e = .ok a ∧ e' = removeProps e (serverMarks a) := by
  have hf := stripModuleGo_rel m m m' h
  intro e' he'
  obtain ⟨s', hs', hse'⟩ := (mem_exportDefaults m' e').mp he'
  obtain ⟨s, hs, hr⟩ := forall₂_mem_right hf s' hs'
  rcases hr with ⟨hnone, rfl⟩ | ⟨e, a, rfl, ha, rfl⟩
  · rw [hnone] at hse'
    cases hse'
  · refine ⟨e, (mem_exportDefaults m e).mpr ⟨_, hs, rfl⟩, a, ha, ?_⟩
    simpa [stmtExportDefault] using hse'.symm

/-! ## Completeness of the server-field removal -/

theorem keyIndices_survival :
    ∀ (ps : List RProp) (i : Nat) (marked : List Nat) (k : String),
      k ∈ (dropIdxGo ps i marked).filterMap propKeyName →
      ∃ j ∈ keyIndicesFrom ps i k, j ∉ marked := by
  intro ps
  induction ps with
  | nil => intro i marked k h; simp [dropIdxGo] at h
  | cons p rest ih =>
      intro i marked k h
      simp only [dropIdxGo] at h
      by_cases hm : i ∈ marked
      · rw [if_pos hm] at h
        obtain ⟨j, hj, hjn⟩ := ih (i + 1) marked k h
        refine ⟨j, ?_, hjn⟩
        simp only [keyIndicesFrom]
        exact List.mem_append.mpr (Or.inr hj)
      · rw [if_neg hm] at h
        rw [List.filterMap_cons] at h
        cases hkey : propKeyName p with
        | none =>
            rw [hkey] at h
            obtain ⟨j, hj, hjn⟩ := ih (i + 1) marked k h
            refine ⟨j, ?_, hjn⟩
            simp only [keyIndicesFrom]
            exact List.mem_append.mpr (Or.inr hj)
        | some k₀ =>
            rw [hkey] at h
            rcases List.mem_cons.mp h with rfl | h
            · refine ⟨i, ?_, hm⟩
              simp only [keyIndicesFrom, hkey]
              simp
            · obtain ⟨j, hj, hjn⟩ := ih (i + 1) marked k h
              refine ⟨j, ?_, hjn⟩
              simp only [keyIndicesFrom]
              exact List.mem_append.mpr (Or.inr hj)

theorem lastKeyIdxFrom_mem :
    ∀ (ps : List RProp) (i : Nat) (k : String) (j : Nat),
      lastKeyIdxFrom ps i k = some j → j ∈ keyIndicesFrom ps i k := by
  intro ps
  induction ps with
  | nil => intro i k j h; simp [lastKeyIdxFrom] at h
  | cons p rest ih =>
      intro i k j h
      simp only [lastKeyIdxFrom] at h
      cases hr : lastKeyIdxFrom rest (i + 1) k with
      | some j' =>
          rw [hr] at h
          simp only [Option.or_some, Option.some.injEq] at h
          subst h
          simp only [keyIndicesFrom]
          exact List.mem_append.mpr (Or.inr (ih (i + 1) k j' hr))
      | none =>
          rw [hr] at h
          simp only [Option.none_or] at h
          by_cases hkey : propKeyName p = some k
          · rw [if_pos hkey] at h
            simp only [Option.some.injEq] at h
            subst h
            simp only [keyIndicesFrom, hkey]
            simp
          · rw [if_neg hkey] at h
            simp at h

theorem lastKeyIdxFrom_none :
    ∀ (ps : List RProp) (i : Nat) (k : String),
      lastKeyIdxFrom ps i k = none → keyIndicesFrom ps i k = [] := by
  intro ps
  induction ps with
  | nil => intro i k _; rfl
  | cons p rest ih =>
      intro i k h
      simp only [lastKeyIdxFrom] at h
      cases hr : lastKeyIdxFrom rest (i + 1) k with
      | some j' => rw [hr] at h; simp at h
      | none =>
          rw [hr] at h
          simp only [Option.none_or] at h
          by_cases hkey : propKeyName p = some k
          · rw [if_pos hkey] at h; simp at h
          · simp only [keyIndicesFrom, if_neg hkey]
            simp [ih (i + 1) k hr]

theorem keyIndices_count :
    ∀ (ps : List RProp) (i : Nat) (k : String),
      (keyIndicesFrom ps i k).length = (ps.filterMap propKeyName).count k := by
  intro ps
  induction ps with
  | nil => intro i k; rfl
  | cons p rest ih =>
      intro i k
      simp only [keyIndicesFrom, List.filterMap_cons]
      cases hkey : propKeyName p with
      | none => simpa using ih (i + 1) k
      | some k₀ =>
          by_cases hkk : k₀ = k
          · subst hkk
            simp [List.count_cons, ih (i + 1) k₀]
          · have hne' : ¬k = k₀ := fun h => hkk h.symm
            rw [if_neg (fun h => hkk (Option.some.inj h))]
            simp [List.count_cons, hne', ih (i + 1) k]

theorem length_le_one_mem_eq (l : List Nat) (h : l.length ≤ 1) :
    ∀ a ∈ l, ∀ b ∈ l, a = b := by
  match l with
  | [] => intro a ha; simp at ha
  | [x] =>
      intro a ha b hb
      rw [List.mem_singleton.mp ha, List.mem_singleton.mp hb]
  | x :: y :: rest => simp at h

theorem lookup_mem (a : Analysis) (k : String) (j : Nat)
    (h : a.lookup k = some j) : (k, j) ∈ a := by
  induction a with
  | nil => simp [List.lookup] at h
  | cons kv rest ih =>
      obtain ⟨k₀, j₀⟩ := kv
      by_cases hk : k = k₀
      · subst hk
        simp only [List.lookup, beq_self_eq_true] at h
        simp only [Option.some.injEq] at h
        subst h
        exact List.mem_cons_self _ _
      · rw [List.lookup, beq_eq_false_iff_ne.mpr hk] at h
        exact List.mem_cons_of_mem _ (ih h)

theorem serverMarks_mem (a : Analysis) (k : String) (j : Nat)
    (hk : k ∈ serverFields) (hl : a.lookup k = some j) : j ∈ serverMarks a := by
  have hmem := lookup_mem a k j hl
  exact List.mem_filterMap.mpr ⟨(k, j), hmem, by simp [hk]⟩

/-- If a server-only field name is not duplicated among the properties, the
marked removal eliminates every property carrying it. -/
theorem removal_complete (ps : List RProp) (a : Analysis)
    (ha : analyzeRoute ps = .ok a)
    (k : String) (hk : k ∈ serverFields)
    (hcount : (ps.filterMap propKeyName).count k ≤ 1) :
    k ∉ (dropIdx ps (serverMarks a)).filterMap propKeyName := by
  intro hmem
  obtain ⟨j, hjidx, hjnot⟩ := keyIndices_survival ps 0 (serverMarks a) k hmem
  cases hlast : lastKeyIdxFrom ps 0 k with
  | none =>
      rw [lastKeyIdxFrom_none ps 0 k hlast] at hjidx
      simp at hjidx
  | some j' =>
      have hj'idx := lastKeyIdxFrom_mem ps 0 k j' hlast
      have hlen : (keyIndicesFrom ps 0 k).length ≤ 1 := by
        rw [keyIndices_count]
        exact hcount
      have hjj : j = j' := length_le_one_mem_eq _ hlen j hjidx j' hj'idx
      have hlookup : a.lookup k = some j' := by
        have hlk := analyzeRouteGo_ok_lookup ps 0 [] a ha k
        rw [hlast] at hlk
        simpa [List.lookup] using hlk
      have hjm := serverMarks_mem a k j' hk hlookup
      rw [← hjj] at hjm
      exact hjnot hjm

/-! ## `transform` for the client target -/

theorem transformAst_ok (m mOut : Module) (h : transformAst m = .ok mOut) :
    assertDefineRouteOnlyAfterExportDefault m = .ok () ∧
    ∃ m', stripModule m = .ok m' ∧ mOut = deadCodeElimination m' (moduleRefs m) := by
  unfold transformAst at h
  cases hg : assertDefineRouteOnlyAfterExportDefault m with
  | error err => rw [hg] at h; simp at h
  | ok u =>
      cases u
      rw [hg] at h
      cases hs : stripModule m with
      | error err => rw [hs] at h; simp at h
      | ok m' =>
          rw [hs] at h
          simp only [Except.ok.injEq] at h
          exact ⟨rfl, m', rfl, h.symm⟩

theorem deadCodeElimination_def (m : Module) (orig : List String) :
    deadCodeElimination m orig = dceIter orig (moduleWeight m) m := rfl

theorem deadCodeElimination_exports (m : Module) (orig : List String) :
    exportDefaults (deadCodeElimination m orig) = exportDefaults m :=
  dceIter_exports orig (moduleWeight m) m

theorem removeProps_routeObjProps (e : Expr) (ps : List RProp) (marked : List Nat)
    (h : routeObjProps e = some ps) :
    routeObjProps (removeProps e marked) = some (dropIdx ps marked) := by
  match e with
  | .obj ps₀ =>
      simp only [routeObjProps, Option.some.injEq] at h
      subst h
      rfl
  | .call c args =>
      match args with
      | [] => simp [routeObjProps] at h
      | [.obj ps₀] =>
          simp only [routeObjProps, Option.some.injEq] at h
          subst h
          rfl
      | [.ident x] => simp [routeObjProps] at h
      | [.strLit x] => simp [routeObjProps] at h
      | [.arr x] => simp [routeObjProps] at h
      | [.call x y] => simp [routeObjProps] at h
      | [.func x] => simp [routeObjProps] at h
      | [.other x] => simp [routeObjProps] at h
      | a₁ :: a₂ :: rest => simp [routeObjProps] at h
  | .ident n => simp [routeObjProps] at h
  | .strLit s => simp [routeObjProps] at h
  | .arr es => simp [routeObjProps] at h
  | .func fr => simp [routeObjProps] at h
  | .other fr => simp [routeObjProps] at h

theorem noDupServerKeys_count (m : Module) (hnd : NoDupServerKeys m)
    (e : Expr) (he : e ∈ exportDefaults m) (ps : List RProp)
    (hps : routeObjProps e = some ps) (k : String) (hk : k ∈ serverFields) :
    (ps.filterMap propKeyName).count k ≤ 1 := by
  have h1 := List.all_eq_true.mp hnd e he
  rw [hps] at h1
  have h2 := List.all_eq_true.mp h1 k hk
  exact of_decide_eq_true h2

/-- C1 counterexample: in
`export default { serverLoader: …, serverLoader: … }` (a valid route export —
duplicate keys raise no error), the client-target transform removes only the
*last* `serverLoader` occurrence, because the analysis maps the key to its
last occurrence; the output still contains a `serverLoader` field. -/
theorem C1_counterexample :
    transformAst exDup = .ok exDupOnce ∧
    exportDefaults exDupOnce = [.obj [.field false (.ident "serverLoader") (.func [])]] ∧
    "serverLoader" ∈ serverFields :=
  ⟨rfl, rfl, by decide⟩

/-- C1 (amended): for every valid route export, provided no server-only field
name occurs more than once among the export's properties, `transform` with
`targetIsServerExecuting = false` produces a tree whose default exports
contain none of the server-only fields; moreover no declaration survives
whose identifier was referenced in the original tree but has no remaining
reference in the output (dead-code elimination is transitive, by the fixed
point), while every declaration with a surviving reference in the retained
tree is kept. -/
theorem C1_amended (m mOut : Module)
    (hnd : NoDupServerKeys m)
    (h : transformAst m = .ok mOut) :
    (∀ e ∈ exportDefaults mOut, ∀ ps, routeObjProps e = some ps →
      ∀ k ∈ serverFields, k ∉ ps.filterMap propKeyName) ∧
    (∀ n, declaredIn mOut n → n ∈ moduleRefs m → n ∈ moduleRefs mOut) ∧
    (∀ n, declaredIn m n → n ∈ moduleRefs mOut → declaredIn mOut n) := by
  obtain ⟨hg, m', hs, rfl⟩ := transformAst_ok m mOut h
  refine ⟨?_, ?_, ?_⟩
  · intro e' he' ps' hps' k hk
    rw [deadCodeElimination_exports] at he'
    obtain ⟨e, he, a, ha, rfl⟩ := strip_exports m m' hs e' he'
    obtain ⟨ps, hps, har⟩ := analyzeRouteExport_ok m e a ha
    have hdrop := removeProps_routeObjProps e ps (serverMarks a) hps
    rw [hdrop] at hps'
    have hps'' := Option.some.inj hps'
    subst hps''
    have hcount := noDupServerKeys_count m hnd e he ps hps k hk
    exact removal_complete ps a har k hk hcount
  · intro n hdecl horig
    exact deadCodeElimination_noDead m' (moduleRefs m) n hdecl horig
  · intro n hdecl href
    have hdecl' : declaredIn m' n := (strip_declaredIn m m' hs n).mp hdecl
    rw [deadCodeElimination_def] at href ⊢
    exact dceIter_keeps_decl (moduleRefs m) (moduleWeight m') m' n hdecl' href

/-- Witness for C1 (amended) at `exRoute`: `serverLoader` is stripped; the
helper chain `helper` → `helper2` is transitively eliminated while `keepMe`
(still referenced from `Component`) is kept. -/
theorem C1_witness :
    (∀ e ∈ exportDefaults exRouteOut, ∀ ps, routeObjProps e = some ps →
      ∀ k ∈ serverFields, k ∉ ps.filterMap propKeyName) ∧
    (∀ n, declaredIn exRouteOut n → n ∈ moduleRefs exRoute → n ∈ moduleRefs exRouteOut) ∧
    (∀ n, declaredIn exRoute n → n ∈ moduleRefs exRouteOut → declaredIn exRouteOut n) :=
  C1_amended exRoute exRouteOut (by decide) (by rfl)

/-! ## Modules without a default export -/

theorem stripStmt_non_export (m : Module) (s : Stmt)
    (h : stmtExportDefault s = none) : stripStmt m s = .ok s := by
  match s with
  | .exportDefault e => simp [stmtExportDefault] at h
  | .importDecl src specs => rfl
  | .varDecl x e => rfl
  | .funcDecl x fr => rfl
  | .exprStmt e => rfl

theorem stripModuleGo_id (m : Module) :
    ∀ ss : List Stmt, (∀ s ∈ ss, stripStmt m s = .ok s) → stripModuleGo m ss = .ok ss := by
  intro ss
  induction ss with
  | nil => intro _; rfl
  | cons s rest ih =>
      intro h
      simp only [stripModuleGo]
      rw [h s (List.mem_cons_self s rest), ih (fun q hq => h q (List.mem_cons_of_mem s hq))]

theorem parseFieldsGo_no_exports (m : Module) :
    ∀ (ss : List Stmt) (acc : List String),
      (∀ s ∈ ss, stmtExportDefault s = none) → parseFieldsGo m ss acc = .ok acc := by
  intro ss
  induction ss with
  | nil => intro acc _; rfl
  | cons s rest ih =>
      intro acc h
      match s with
      | .exportDefault e =>
          have := h _ (List.mem_cons_self _ rest)
          simp [stmtExportDefault] at this
      | .importDecl src specs =>
          exact ih acc (fun q hq => h q (List.mem_cons_of_mem _ hq))
      | .varDecl x e =>
          exact ih acc (fun q hq => h q (List.mem_cons_of_mem _ hq))
      | .funcDecl x fr =>
          exact ih acc (fun q hq => h q (List.mem_cons_of_mem _ hq))
      | .exprStmt e =>
          exact ih acc (fun q hq => h q (List.mem_cons_of_mem _ hq))

/-- C10: a module that parses, passes the misuse guard, and has no
default-export declaration at all: `parseFields` returns the empty list with
no error, and the client-target transform marks no fields for removal (the
strip pass returns the module unchanged) and succeeds without any
`SchemaError` — indeed it returns the module unchanged. -/
theorem C10_no_default_export (m : Module)
    (h1 : exportDefaults m = [])
    (h2 : assertDefineRouteOnlyAfterExportDefault m = .ok ()) :
    parseFields m = .ok [] ∧ stripModule m = .ok m ∧ transformAst m = .ok m := by
  have hnone : ∀ s ∈ m, stmtExportDefault s = none := by
    intro s hs
    exact List.filterMap_eq_nil_iff.mp h1 s hs
  have hstrip : stripModule m = .ok m :=
    stripModuleGo_id m m (fun s hs => stripStmt_non_export m s (hnone s hs))
  refine ⟨?_, hstrip, ?_⟩
  · unfold parseFields
    rw [h2]
    exact parseFieldsGo_no_exports m m [] hnone
  · unfold transformAst
    rw [h2, hstrip]
    show Except.ok (deadCodeElimination m (moduleRefs m)) = Except.ok m
    rw [deadCodeElimination_self]

/-- Witness for C10 at a module with an unused canonical import and a
function declaration, but no default export. -/
theorem C10_witness :
    parseFields exNoExport = .ok [] ∧ stripModule exNoExport = .ok exNoExport ∧
      transformAst exNoExport = .ok exNoExport :=
  C10_no_default_export exNoExport (by rfl) (by rfl)

/-! ## Idempotence machinery -/

theorem getBinding_exists (m : Module) (n : String) (b : BindingKind)
    (h : getBinding m n = some b) : ∃ s ∈ m, stmtBinding s n = some b :=
  List.exists_of_findSome?_eq_some h

theorem getBinding_of_stmtBinding (m : Module) (n : String) (b : BindingKind)
    (hwf : WFModule m) (s : Stmt) (hs : s ∈ m) (hb : stmtBinding s n = some b) :
    getBinding m n = some b := by
  induction m with
  | nil => simp at hs
  | cons s₀ rest ih =>
      have hwf' : WFModule rest := by
        have := hwf
        simp only [WFModule, bindingNames, List.flatMap_cons] at this
        exact List.Nodup.of_append_right this
      rcases List.mem_cons.mp hs with rfl | htail
      · show List.findSome? _ (_ :: _) = _
        rw [List.findSome?_cons, hb]
      · have hbound : n ∈ bindingNames rest :=
          List.mem_flatMap.mpr ⟨s, htail, stmtBinding_mem_bindingNames s n b hb⟩
        have hnot : stmtBinding s₀ n = none := by
          cases hb₀ : stmtBinding s₀ n with
          | none => rfl
          | some b₀ =>
              exfalso
              have hmem := stmtBinding_mem_bindingNames s₀ n b₀ hb₀
              have := hwf
              simp only [WFModule, bindingNames, List.flatMap_cons] at this
              exact (List.disjoint_of_nodup_append this) hmem hbound
        show List.findSome? _ (_ :: _) = _
        rw [List.findSome?_cons, hnot]
        exact ih hwf' htail

theorem stmtExportDefault_some (s : Stmt) (e : Expr)
    (h : stmtExportDefault s = some e) : s = .exportDefault e := by
  match s with
  | .exportDefault e₀ =>
      simp only [stmtExportDefault, Option.some.injEq] at h
      rw [h]
  | .importDecl src specs => simp [stmtExportDefault] at h
  | .varDecl x ex => simp [stmtExportDefault] at h
  | .funcDecl x fr => simp [stmtExportDefault] at h
  | .exprStmt ex => simp [stmtExportDefault] at h

theorem routeObjProps_shape (e : Expr) (ps : List RProp)
    (h : routeObjProps e = some ps) :
    e = .obj ps ∨ ∃ c, e = .call c [.obj ps] := by
  match e with
  | .obj ps₀ =>
      simp only [routeObjProps, Option.some.injEq] at h
      exact Or.inl (by rw [h])
  | .call c args =>
      match args with
      | [.obj ps₀] =>
          simp only [routeObjProps, Option.some.injEq] at h
          exact Or.inr ⟨c, by rw [h]⟩
      | [] => simp [routeObjProps] at h
      | [.ident x] => simp [routeObjProps] at h
      | [.strLit x] => simp [routeObjProps] at h
      | [.arr x] => simp [routeObjProps] at h
      | [.call x y] => simp [routeObjProps] at h
      | [.func x] => simp [routeObjProps] at h
      | [.other x] => simp [routeObjProps] at h
      | a₁ :: a₂ :: rest => simp [routeObjProps] at h
  | .ident nm => simp [routeObjProps] at h
  | .strLit s₀ => simp [routeObjProps] at h
  | .arr es => simp [routeObjProps] at h
  | .func fr => simp [routeObjProps] at h
  | .other fr => simp [routeObjProps] at h

theorem analyzeRouteExport_call_info (m : Module) (c : Expr) (args : List Expr)
    (a : Analysis) (h : analyzeRouteExport m (.call c args) = .ok a) :
    ∃ n ps, c = .ident n ∧ isDefineRoute m n = true ∧ args = [.obj ps] := by
  match c with
  | .ident n =>
      simp only [analyzeRouteExport] at h
      by_cases hd : isDefineRoute m n
      · rw [if_pos hd] at h
        match args with
        | [.obj ps] => exact ⟨n, ps, rfl, hd, rfl⟩
        | [] => simp at h
        | [.ident x] => simp at h
        | [.strLit x] => simp at h
        | [.arr x] => simp at h
        | [.call x y] => simp at h
        | [.func x] => simp at h
        | [.other x] => simp at h
        | a₁ :: a₂ :: rest => simp at h
      · rw [if_neg hd] at h
        simp at h
  | .strLit s₀ => simp [analyzeRouteExport] at h
  | .arr es => simp [analyzeRouteExport] at h
  | .obj ps₀ => simp [analyzeRouteExport] at h
  | .call c' as' => simp [analyzeRouteExport] at h
  | .func fr => simp [analyzeRouteExport] at h
  | .other fr => simp [analyzeRouteExport] at h

theorem dropIdxGo_nil_marked :
    ∀ (ps : List RProp) (i : Nat), dropIdxGo ps i [] = ps := by
  intro ps
  induction ps with
  | nil => intro i; rfl
  | cons p rest ih =>
      intro i
      simp only [dropIdxGo, List.not_mem_nil, if_false]
      rw [ih (i + 1)]

theorem removeProps_nil_marked (e : Expr) : removeProps e [] = e := by
  match e with
  | .obj ps =>
      simp only [removeProps, dropIdx, dropIdxGo_nil_marked]
  | .call c args =>
      simp only [removeProps]
      have hmap : ∀ l : List Expr,
          l.map (fun a => match a with
            | Expr.obj ps => Expr.obj (dropIdx ps [])
            | a => a) = l := by
        intro l
        induction l with
        | nil => rfl
        | cons a rest ih =>
            rw [List.map_cons, ih]
            congr 1
            match a with
            | .obj ps => simp [dropIdx, dropIdxGo_nil_marked]
            | .ident n => rfl
            | .strLit s₀ => rfl
            | .arr es => rfl
            | .call c' as' => rfl
            | .func fr => rfl
            | .other fr => rfl
      rw [hmap]
  | .ident n => rfl
  | .strLit s₀ => rfl
  | .arr es => rfl
  | .func fr => rfl
  | .other fr => rfl

theorem dceIter_occs (orig : List String) (fuel : Nat) (m : Module) :
    ∀ o ∈ moduleOccs (dceIter orig fuel m), o ∈ moduleOccs m := by
  intro o ho
  obtain ⟨s', hs', hos'⟩ := List.mem_flatMap.mp ho
  obtain ⟨s, hs, hrel⟩ := dceIter_mem orig fuel m s' hs'
  rcases hrel with rfl | ⟨src, specs, specs', rfl, rfl, hsub⟩
  · exact List.mem_flatMap.mpr ⟨_, hs, hos'⟩
  · refine List.mem_flatMap.mpr ⟨_, hs, ?_⟩
    simp only [stmtOccs] at hos' ⊢
    obtain ⟨sp, hsp, hosp⟩ := List.mem_flatMap.mp hos'
    exact List.mem_flatMap.mpr ⟨sp, hsub sp hsp, hosp⟩

/-- C7 counterexample: the client-target transform of
`export default { serverLoader: …, serverLoader: … }` removes only the last
duplicate; re-running the client-target transform on that output removes the
remaining `serverLoader`, so the second run does not return its input text. -/
theorem C7_counterexample :
    transformAst exDup = .ok exDupOnce ∧
    transform (generate exDupOnce) exDupOnce false = .ok (generate exDupNone) ∧
    generate exDupNone ≠ generate exDupOnce :=
  ⟨rfl, rfl, by decide⟩

/-- C7 (amended): for every well-formed valid route module whose server-only
field names are not duplicated, running the client-target `transform` on the
output of a previous client-target transform is a no-op: the transformed tree
is returned unchanged and the emitted text equals the input text. -/
theorem C7_idempotent (m m₁ : Module)
    (hwf : WFModule m) (hnd : NoDupServerKeys m)
    (h : transformAst m = .ok m₁) :
    transformAst m₁ = .ok m₁ ∧
    transform (generate m₁) m₁ false = .ok (generate m₁) := by
  obtain ⟨hg, m', hs, hm₁⟩ := transformAst_ok m m₁ h
  have hwf' : WFModule m' := strip_wf m m' hs hwf
  have hwf₁ : WFModule m₁ := by
    rw [hm₁, deadCodeElimination_def]
    exact dceIter_wf _ _ _ hwf'
  have hoccs : ∀ o ∈ moduleOccs m₁, o ∈ moduleOccs m := by
    intro o ho
    rw [hm₁, deadCodeElimination_def] at ho
    exact strip_occs m m' hs o (dceIter_occs _ _ _ o ho)
  have hbback : ∀ nm, isDefineRoute m₁ nm = true → isDefineRoute m nm = true := by
    intro nm hres
    unfold isDefineRoute at hres
    cases hb : getBinding m₁ nm with
    | none => rw [hb] at hres; simp at hres
    | some b =>
        rw [hb] at hres
        have hbc := (isCanonicallyImportedAs_iff b _ _).mp hres
        subst hbc
        obtain ⟨specs₁, hs₁mem, hsp₁⟩ := getBinding_importNamed m₁ nm _ _ hb
        rw [hm₁, deadCodeElimination_def] at hs₁mem
        obtain ⟨s₀, hs₀, hrel⟩ := dceIter_mem _ _ _ _ hs₁mem
        have himp' : ∃ specs₀, Stmt.importDecl "react-router" specs₀ ∈ m' ∧
            ImportSpec.named nm "defineRoute" ∈ specs₀ := by
          rcases hrel with heq | ⟨src, specs₀, specs₁', heq₀, heq₁, hsub⟩
          · exact ⟨specs₁, heq ▸ hs₀, hsp₁⟩
          · injection heq₁ with hsrc hspecs
            subst heq₀
            subst hsrc
            exact ⟨specs₀, hs₀, hsub _ (hspecs ▸ hsp₁)⟩
        obtain ⟨specs₀, hs₀mem, hsp₀⟩ := himp'
        have hf := stripModuleGo_rel m m m' hs
        obtain ⟨s₂, hs₂, hrel₂⟩ := forall₂_mem_right hf _ hs₀mem
        have himp : Stmt.importDecl "react-router" specs₀ ∈ m := by
          rcases hrel₂ with ⟨hnone, heq⟩ | ⟨e, a, heq, _, heq'⟩
          · rw [← heq] at hs₂; exact hs₂
          · exact absurd heq' (by simp)
        have hgb : getBinding m nm = some (.importNamed "defineRoute" "react-router") :=
          getBinding_of_importSpec m nm _ _ hwf specs₀ himp hsp₀
        unfold isDefineRoute
        rw [hgb]
        decide
  have hg₁ : assertDefineRouteOnlyAfterExportDefault m₁ = .ok () := by
    apply (guard_ok_iff m₁).mpr
    intro o ho hres
    exact (guard_ok_iff m).mp hg o (hoccs o ho) (hbback o.name hres)
  have hstrip₁ : ∀ s ∈ m₁, stripStmt m₁ s = .ok s := by
    intro s hs₁
    cases hse : stmtExportDefault s with
    | none => exact stripStmt_non_export m₁ s hse
    | some e₁ =>
        have hseq := stmtExportDefault_some s e₁ hse
        subst hseq
        have he₁ : e₁ ∈ exportDefaults m₁ := (mem_exportDefaults m₁ e₁).mpr ⟨_, hs₁, rfl⟩
        have he₁' : e₁ ∈ exportDefaults m' := by
          rw [hm₁, deadCodeElimination_exports] at he₁
          exact he₁
        obtain ⟨e, he, a, ha, he₁eq⟩ := strip_exports m m' hs e₁ he₁'
        obtain ⟨ps, hps, har⟩ := analyzeRouteExport_ok m e a ha
        have hok : ∀ p ∈ dropIdx ps (serverMarks a), okProp p := by
          intro p hp
          exact analyzeRouteGo_forall_of_ok ps 0 [] a har p ((dropIdx_sublist ps _).subset hp)
        obtain ⟨a₁, ha₁⟩ := analyzeRouteGo_ok_of_forall (dropIdx ps (serverMarks a)) 0 [] hok
        have hnosrv : ∀ k ∈ serverFields,
            k ∉ (dropIdx ps (serverMarks a)).filterMap propKeyName := by
          intro k hk
          exact removal_complete ps a har k hk (noDupServerKeys_count m hnd e he ps hps k hk)
        have hmarks : serverMarks a₁ = [] := by
          apply List.filterMap_eq_nil_iff.mpr
          rintro ⟨k, i⟩ hki
          have hkk : k ∈ a₁.map Prod.fst := List.mem_map.mpr ⟨(k, i), hki, rfl⟩
          rw [analyzeRoute_ok_keys _ _ ha₁] at hkk
          have hkmem := dedupFirst_subset _ k hkk
          by_cases hksrv : k ∈ serverFields
          · exact absurd hkmem (hnosrv k hksrv)
          · simp [hksrv]
        have hae₁ : analyzeRouteExport m₁ e₁ = .ok a₁ := by
          rcases routeObjProps_shape e ps hps with rfl | ⟨c, rfl⟩
          · rw [he₁eq]
            show analyzeRouteExport m₁ (removeProps (.obj ps) (serverMarks a)) = .ok a₁
            simp only [removeProps, analyzeRouteExport]
            exact ha₁
          · obtain ⟨nm, ps', hceq, hdr, hargs⟩ := analyzeRouteExport_call_info m c _ a ha
            have hps2 : ps = ps' := by
              simpa using hargs
            subst hps2
            subst hceq
            have hgbm : getBinding m nm = some (.importNamed "defineRoute" "react-router") := by
              unfold isDefineRoute at hdr
              cases hb : getBinding m nm with
              | none => rw [hb] at hdr; simp at hdr
              | some b =>
                  rw [hb] at hdr
                  rw [(isCanonicallyImportedAs_iff b _ _).mp hdr]
            obtain ⟨specsm, himpm, hspm⟩ := getBinding_importNamed m nm _ _ hgbm
            have hf := stripModuleGo_rel m m m' hs
            obtain ⟨s₃, hs₃, hrel₃⟩ := forall₂_mem_left hf _ himpm
            have himpm' : Stmt.importDecl "react-router" specsm ∈ m' := by
              rcases hrel₃ with ⟨hnone, heq⟩ | ⟨e₀, a₀, heq, _, _⟩
              · rw [heq] at hs₃; exact hs₃
              · exact absurd heq (by simp)
            have hgb' : getBinding m' nm = some (.importNamed "defineRoute" "react-router") :=
              getBinding_of_importSpec m' nm _ _ hwf' specsm himpm' hspm
            obtain ⟨sb, hsb, hsbb⟩ := getBinding_exists m' nm _ hgb'
            have hnmref : nm ∈ moduleRefs m₁ := by
              apply mem_moduleRefs_of m₁ (.exportDefault e₁) nm hs₁
              rw [he₁eq]
              simp [removeProps, stmtRefs, exprRefs, callChildOccs]
            have hnm₁ : ∃ s' ∈ m₁,
                stmtBinding s' nm = some (.importNamed "defineRoute" "react-router") := by
              rw [hm₁, deadCodeElimination_def] at hnmref ⊢
              exact dceIter_keeps_binding (moduleRefs m) _ m' nm _ ⟨sb, hsb, hsbb⟩ hnmref
            obtain ⟨sb₁, hsb₁, hsbb₁⟩ := hnm₁
            have hgb₁ : getBinding m₁ nm = some (.importNamed "defineRoute" "react-router") :=
              getBinding_of_stmtBinding m₁ nm _ hwf₁ sb₁ hsb₁ hsbb₁
            have hdr₁ : isDefineRoute m₁ nm = true := by
              unfold isDefineRoute
              rw [hgb₁]
              decide
            rw [he₁eq]
            show analyzeRouteExport m₁
                (removeProps (.call (.ident nm) [.obj ps]) (serverMarks a)) = .ok a₁
            simp only [removeProps, List.map_cons, List.map_nil, analyzeRouteExport,
              hdr₁, if_true]
            exact ha₁
        simp only [stripStmt, hae₁, hmarks, removeProps_nil_marked]
  have hsm₁ : stripModule m₁ = .ok m₁ := stripModuleGo_id m₁ m₁ hstrip₁
  have htr : transformAst m₁ = .ok m₁ := by
    unfold transformAst
    rw [hg₁, hsm₁]
    show Except.ok (deadCodeElimination m₁ (moduleRefs m₁)) = Except.ok m₁
    rw [deadCodeElimination_self]
  refine ⟨htr, ?_⟩
  have hdef : transform (generate m₁) m₁ false =
      (match transformAst m₁ with
        | .error err => .error err
        | .ok mm => .ok (generate mm)) := rfl
  rw [hdef, htr]

/-- Witness for C7 (amended) at `exRoute`. -/
theorem C7_witness :
    transformAst exRouteOut = .ok exRouteOut ∧
    transform (generate exRouteOut) exRouteOut false = .ok (generate exRouteOut) :=
  C7_idempotent exRoute exRouteOut (by decide) (by decide) (by rfl)

end DefineRoute
